import Mathlib

/-!
Verification of the indexing-and-retrieval engine of a local RAG desktop
application (Rust sources under src-tauri/src: library.rs, lib.rs).

Modelling conventions.
* Rust strings are modelled as lists of Unicode scalar values (Lean Char),
  mirroring str::chars(); byte-level facts use an explicit UTF-8 encoder.
* External collaborators are oracle parameters: the embedding HTTP server is a
  response stream, the file system a partial map, SHA-256 an abstract hash
  function, language detection an abstract classifier, SQLite tables are
  in-memory lists with the relevant operations spelled out.
* The source's unbounded loops are given an explicit fuel parameter; a result
  of none means the loop did not finish within the given fuel.  For chunk_text
  a non-advancing iteration reproduces its exact state, so fuel length+1 is
  exhausted only on genuinely diverging inputs.
-/

namespace LFC

/-- A Rust string slice, seen as its sequence of chars (Rust str::chars). -/
abbrev Str := List Char

/-- Mirror of Rust char::is_whitespace: the Unicode White_Space property
(25 code points). -/
def rustIsWhitespace (c : Char) : Bool :=
  c.toNat = 0x9 || c.toNat = 0xA || c.toNat = 0xB || c.toNat = 0xC ||
  c.toNat = 0xD || c.toNat = 0x20 || c.toNat = 0x85 || c.toNat = 0xA0 ||
  c.toNat = 0x1680 ||
  (0x2000 ≤ c.toNat && c.toNat ≤ 0x200A) ||
  c.toNat = 0x2028 || c.toNat = 0x2029 || c.toNat = 0x202F ||
  c.toNat = 0x205F || c.toNat = 0x3000

/-- Mirror of Rust str::trim on the char sequence: drop leading and trailing
whitespace. -/
def trimChars (cs : Str) : Str :=
  ((cs.dropWhile rustIsWhitespace).reverse.dropWhile rustIsWhitespace).reverse

/-- Number of bytes of the UTF-8 encoding of a char (Rust char::len_utf8). -/
def utf8Len (c : Char) : Nat :=
  if c.toNat < 0x80 then 1
  else if c.toNat < 0x800 then 2
  else if c.toNat < 0x10000 then 3
  else 4

/-- The UTF-8 encoding of one char, as byte values. -/
def utf8Bytes (c : Char) : List Nat :=
  let n := c.toNat
  if n < 0x80 then [n]
  else if n < 0x800 then [0xC0 + n / 64, 0x80 + n % 64]
  else if n < 0x10000 then
    [0xE0 + n / 4096, 0x80 + n / 64 % 64, 0x80 + n % 64]
  else
    [0xF0 + n / 262144, 0x80 + n / 4096 % 64, 0x80 + n / 64 % 64, 0x80 + n % 64]

/-- UTF-8 encoding of a char sequence: the bytes of the Rust str. -/
def encodeChars (cs : Str) : List Nat := (cs.map utf8Bytes).flatten

/-- Byte length of a char sequence: Rust String::len. -/
def byteLen (cs : Str) : Nat := (cs.map utf8Len).sum

/-! ## Chunker (library.rs: is_chunk_boundary, chunk_text)

chunk_text walks char positions.  The source keeps a table `boundaries` of
cumulative byte offsets and slices the str at `boundaries[start]..boundaries[end]`;
`boundaries` is modelled below and related to char slicing by the C7 theorem,
so the loop itself is modelled over char indices. -/

/-- Mirror of is_chunk_boundary: whitespace or one of . ! ? ; , : ) ] }. -/
def is_chunk_boundary (c : Char) : Bool :=
  rustIsWhitespace c ||
  (c = '.' || c = '!' || c = '?' || c = ';' || c = ',' || c = ':' ||
   c = ')' || c = ']' || c = '}')

/-- The byte-offset table built by chunk_text: boundaries[i] is the byte offset
of the i-th char; one entry per char plus a leading 0. -/
def boundaries : Str → List Nat
  | [] => [0]
  | c :: rest => 0 :: (boundaries rest).map (fun b => utf8Len c + b)

/-- The backwards boundary search of chunk_text: scan indices e-1 down to
start, return idx+1 for the first boundary char found. -/
def lastBoundary (chars : Str) (start : Nat) : Nat → Option Nat
  | 0 => none
  | e + 1 =>
    if e < start then none
    else if is_chunk_boundary (chars.getD e (Char.ofNat 0)) then some (e + 1)
    else lastBoundary chars start e

/-- One iteration's final end position: candidate end min(start+max, len), then
snap back to just after the last boundary when that keeps at least
min_boundary_len chars. -/
def chunkEnd (chars : Str) (maxc minb start : Nat) : Nat :=
  let e0 := min (start + maxc) chars.length
  match lastBoundary chars start e0 with
  | some b => if start < b ∧ minb ≤ b - start then b else e0
  | none => e0

/-- The while loop of chunk_text.  Fuel counts iterations; none = the loop did
not finish.  The emitted chunk is the trimmed slice [start, end). -/
def chunkLoop (chars : Str) (maxc ov minb : Nat) :
    Nat → Nat → List Str → Option (List Str)
  | 0, _, _ => none
  | fuel + 1, start, acc =>
    if start < chars.length then
      let e := chunkEnd chars maxc minb start
      if e ≤ start then some acc
      else
        let chunk := trimChars ((chars.drop start).take (e - start))
        let acc2 := if chunk.isEmpty then acc else acc ++ [chunk]
        if e = chars.length then some acc2
        else chunkLoop chars maxc ov minb fuel (e - ov) acc2
    else some acc

/-- Mirror of chunk_text: trim the input, clamp max_chars to the char count and
overlap to max_chars-1, then run the loop with threshold max_chars/3. -/
def chunk_text (fuel : Nat) (s : Str) (max_chars overlap : Nat) :
    Option (List Str) :=
  let t := trimChars s
  if t.isEmpty || max_chars == 0 then some []
  else
    let maxc := min max_chars t.length
    let ov := min overlap (maxc - 1)
    chunkLoop t maxc ov (maxc / 3) fuel 0 []

/-- C2's literal chunking algorithm: candidate end min(start+max_chars, len);
the last boundary in [start, end) snaps the end to just after it when its
distance from start is at least max_chars/3 (the raw parameter, not clamped);
emit the trimmed slice; next start is end minus overlap; stop at the length. -/
def chunkClaimEnd (chars : Str) (maxr start : Nat) : Nat :=
  let e0 := min (start + maxr) chars.length
  match ((List.range' start (e0 - start)).filter
      (fun i => is_chunk_boundary (chars.getD i (Char.ofNat 0)))).getLast? with
  | some i => if maxr / 3 ≤ i + 1 - start then i + 1 else e0
  | none => e0

/-- Loop of the claim-literal algorithm. -/
def chunkClaimLoop (chars : Str) (maxr ov : Nat) :
    Nat → Nat → List Str → Option (List Str)
  | 0, _, _ => none
  | fuel + 1, start, acc =>
    let e := chunkClaimEnd chars maxr start
    let chunk := trimChars ((chars.drop start).take (e - start))
    let acc2 := if chunk.isEmpty then acc else acc ++ [chunk]
    if e = chars.length then some acc2
    else chunkClaimLoop chars maxr ov fuel (e - ov) acc2

/-- The claim-literal chunker, applied to the trimmed input. -/
def chunkClaim (fuel : Nat) (s : Str) (maxr ov : Nat) : Option (List Str) :=
  chunkClaimLoop (trimChars s) maxr ov fuel 0 []

/-- End position of the amended claim: identical to the literal claim except
that the snap threshold is min(max_chars, length)/3, the clamped value the
source actually uses. -/
def chunkAmendedEnd (chars : Str) (maxr start : Nat) : Nat :=
  let e0 := min (start + maxr) chars.length
  match ((List.range' start (e0 - start)).filter
      (fun i => is_chunk_boundary (chars.getD i (Char.ofNat 0)))).getLast? with
  | some i => if min maxr chars.length / 3 ≤ i + 1 - start then i + 1 else e0
  | none => e0

/-- Loop of the amended-claim algorithm. -/
def chunkAmendedLoop (chars : Str) (maxr ov : Nat) :
    Nat → Nat → List Str → Option (List Str)
  | 0, _, _ => none
  | fuel + 1, start, acc =>
    let e := chunkAmendedEnd chars maxr start
    let chunk := trimChars ((chars.drop start).take (e - start))
    let acc2 := if chunk.isEmpty then acc else acc ++ [chunk]
    if e = chars.length then some acc2
    else chunkAmendedLoop chars maxr ov fuel (e - ov) acc2

/-- The amended-claim chunker: the claim's algorithm with the snap threshold
computed from the clamped maximum, applied to the trimmed input. -/
def chunkAmended (fuel : Nat) (s : Str) (maxr ov : Nat) : Option (List Str) :=
  let t := trimChars s
  if t.isEmpty then some []
  else chunkAmendedLoop t maxr ov fuel 0 []

/-! ## FTS query builder (library.rs: sanitize_fts_token, build_fts_query)

char::is_alphanumeric consults the full Unicode tables, so the classifier is a
parameter; theorems hold for an arbitrary classifier and concrete examples
instantiate it with the ASCII classifier on ASCII input. -/

/-- Mirror of sanitize_fts_token: keep only the alphanumeric chars of a token. -/
def sanitize_fts_token (alnum : Char → Bool) (t : Str) : Str := t.filter alnum

/-- Worker for whitespace splitting; accumulates the current token reversed. -/
def splitWsGo (cur : Str) : Str → List Str
  | [] => if cur.isEmpty then [] else [cur.reverse]
  | c :: rest =>
    if rustIsWhitespace c then
      if cur.isEmpty then splitWsGo [] rest
      else cur.reverse :: splitWsGo [] rest
    else splitWsGo (c :: cur) rest

/-- Mirror of Rust str::split_whitespace: split on Unicode whitespace,
discarding empty substrings. -/
def splitWs (cs : Str) : List Str := splitWsGo [] cs

/-- Mirror of build_fts_query.  The length test is Rust String::len on the
sanitized token: its UTF-8 byte length. -/
def build_fts_query (alnum : Char → Bool) (input : Str) : Option Str :=
  let tokens :=
    (((splitWs input).map (sanitize_fts_token alnum)).filter
      (fun t => decide (1 < byteLen t))).map (fun t => t ++ ['*'])
  if tokens.isEmpty then none else some (List.intercalate [' '] tokens)

/-- C8's description of the query builder, written independently as one
filterMap pass: per whitespace token, keep the alphanumeric chars, drop the
token if fewer than 2 length units survive, else suffix the star; join the
survivors with single spaces, none when no token survives. -/
def ftsQuerySpec (alnum : Char → Bool) (input : Str) : Option Str :=
  match (splitWs input).filterMap (fun tok =>
      let s := tok.filter alnum
      if 2 ≤ byteLen s then some (s ++ ['*']) else none) with
  | [] => none
  | t :: ts => some (List.intercalate [' '] (t :: ts))

/-! ## Watcher debounce (lib.rs: should_process)

Instants are milliseconds on a monotone clock; Instant::duration_since
saturates at zero, matching Nat subtraction.  The per-path HashMap of last
admitted times is an association list. -/

/-- The debounce map: last admitted event time per path, in milliseconds. -/
abbrev DebounceMap := List (String × Nat)

/-- HashMap::insert: record (replace) the timestamp of a path. -/
def debounceInsert (m : DebounceMap) (p : String) (t : Nat) : DebounceMap :=
  (p, t) :: m.filter (fun kv => kv.1 ≠ p)

/-- Mirror of should_process: reject when the same path was admitted less than
2000 ms ago (leaving the map untouched); otherwise record now and admit. -/
def should_process (m : DebounceMap) (now : Nat) (p : String) :
    Bool × DebounceMap :=
  match m.lookup p with
  | some prev =>
    if now - prev < 2000 then (false, m)
    else (true, debounceInsert m p now)
  | none => (true, debounceInsert m p now)

/-! ## Embedding pipeline (library.rs: embed_batch_with_retry,
embed_chunk_with_fallback, embed_with_batches, average_embeddings)

The HTTP server is an oracle mapping (call index, request input) to a
response; the trace records every request made and every sleep performed, so
retry behaviour is observable.  f32 values are modelled as rationals.  Errors
are abstracted to the three kinds the pipeline's classifiers distinguish. -/

/-- An embedding vector (f32 entries as rationals). -/
abbrev Vec := List ℚ

/-- Error kinds distinguished by is_reqwest_timeout / is_ollama_input_too_large. -/
inductive EmbedErr where
  | timeout : EmbedErr
  | tooLarge : EmbedErr
  | other : EmbedErr
deriving DecidableEq

/-- Mirror of is_reqwest_timeout. -/
def is_reqwest_timeout : EmbedErr → Bool
  | .timeout => true
  | _ => false

/-- Mirror of is_ollama_input_too_large (HTTP 413, or 400/422 with a
length-indicative body, abstracted to one error kind). -/
def is_ollama_input_too_large : EmbedErr → Bool
  | .tooLarge => true
  | _ => false

/-- Mirror of is_embed_fallback_err. -/
def is_embed_fallback_err (e : EmbedErr) : Bool :=
  is_reqwest_timeout e || is_ollama_input_too_large e

/-- Mirror of average_embeddings: coordinate-wise mean; none on empty input,
zero dimension, or any dimension mismatch (the source returns early from its
loop on a mismatch; the result is the same). -/
def average_embeddings (embeds : List Vec) : Option Vec :=
  match embeds with
  | [] => none
  | e0 :: _ =>
    let dim := e0.length
    if dim = 0 then none
    else if embeds.all (fun e => e.length = dim) then
      some ((embeds.foldl (fun out emb => out.zipWith (· + ·) emb)
        (List.replicate dim (0 : ℚ))).map (fun v => v / (embeds.length : ℚ)))
    else none

/-- Mirror of FallbackStrategy (env OLLAMA_EMBED_FALLBACK_STRATEGY). -/
inductive FallbackStrategy where
  | average : FallbackStrategy
  | first : FallbackStrategy
deriving DecidableEq

/-- The embedding server oracle: response as a function of how many calls were
made before and of the request input. -/
structure EmbedCtx where
  resp : Nat → List Str → Except EmbedErr (List Vec)

/-- Observable trace of the pipeline: every request input in order, and every
sleep (milliseconds) performed. -/
structure EmbedTrace where
  calls : List (List Str)
  sleeps : List Nat
deriving DecidableEq

/-- One HTTP embed call: record the request, answer from the oracle. -/
def oembed (ctx : EmbedCtx) (tr : EmbedTrace) (input : List Str) :
    EmbedTrace × Except EmbedErr (List Vec) :=
  ({ tr with calls := tr.calls ++ [input] }, ctx.resp tr.calls.length input)

/-- thread::sleep, recorded in the trace. -/
def sleepMs (tr : EmbedTrace) (ms : Nat) : EmbedTrace :=
  { tr with sleeps := tr.sleeps ++ [ms] }

/-- The half-splitting recursion of embed_batch_with_retry: run the given
function on batch[..mid] then batch[mid..], concatenate, propagate errors. -/
def ebrSplit (rec : EmbedTrace → List Str → EmbedTrace × Except EmbedErr (List Vec))
    (tr : EmbedTrace) (batch : List Str) : EmbedTrace × Except EmbedErr (List Vec) :=
  let mid := batch.length / 2
  let pl := rec tr (batch.take mid)
  match pl.2 with
  | .error el => (pl.1, .error el)
  | .ok lv =>
    let pr := rec pl.1 (batch.drop mid)
    match pr.2 with
    | .error er => (pr.1, .error er)
    | .ok rv => (pr.1, .ok (lv ++ rv))

/-- The loop body of embed_batch_with_retry.  The loop runs its body at most
twice (attempts reaches 2), so both iterations are written out: first call; on
error, split in half when it is a timeout on a batch of more than one element,
otherwise sleep 400 ms and call again; a second-attempt timeout on a large
batch also splits, any other second error propagates.  The half-splitting
recursion is the continuation `split`. -/
def ebrBody (ctx : EmbedCtx)
    (split : EmbedTrace → EmbedErr → EmbedTrace × Except EmbedErr (List Vec))
    (tr : EmbedTrace) (batch : List Str) :
    EmbedTrace × Except EmbedErr (List Vec) :=
  let p1 := oembed ctx tr batch
  match p1.2 with
  | .ok v => (p1.1, .ok v)
  | .error e1 =>
    if is_reqwest_timeout e1 && decide (1 < batch.length) then split p1.1 e1
    else
      let p2 := oembed ctx (sleepMs p1.1 400) batch
      match p2.2 with
      | .ok v => (p2.1, .ok v)
      | .error e2 =>
        if is_reqwest_timeout e2 && decide (1 < batch.length) then split p2.1 e2
        else (p2.1, .error e2)

/-- The fuelled retry loop.  Fuel only feeds the split recursion; the wrapper
passes fuel = batch.length, which the halving never exhausts, so the fuel-0
degradation (propagating the timeout instead of splitting) is unreachable
from the wrapper. -/
def ebrGo (ctx : EmbedCtx) :
    Nat → EmbedTrace → List Str → EmbedTrace × Except EmbedErr (List Vec)
  | 0, tr, batch => ebrBody ctx (fun tr1 e => (tr1, .error e)) tr batch
  | fuel + 1, tr, batch =>
    ebrBody ctx (fun tr1 _e => ebrSplit (ebrGo ctx fuel) tr1 batch) tr batch

/-- Mirror of embed_batch_with_retry. -/
def embed_batch_with_retry (ctx : EmbedCtx) (tr : EmbedTrace) (batch : List Str) :
    EmbedTrace × Except EmbedErr (List Vec) :=
  ebrGo ctx batch.length tr batch

/-- The per-subchunk loop of embed_chunk_with_fallback: embed each part on its
own, keep the last vector of each response (Vec::pop), skip parts failing with
a fallback-class error, propagate any other error. -/
def embedPartsGo (ctx : EmbedCtx) :
    EmbedTrace → List Str → EmbedTrace × Except EmbedErr (List Vec)
  | tr, [] => (tr, .ok [])
  | tr, p :: rest =>
    let p1 := oembed ctx tr [p]
    match p1.2 with
    | .ok out =>
      match out.getLast? with
      | some emb =>
        let pr := embedPartsGo ctx p1.1 rest
        (pr.1, pr.2.map (fun embs => emb :: embs))
      | none => embedPartsGo ctx p1.1 rest
    | .error perr =>
      if is_embed_fallback_err perr then embedPartsGo ctx p1.1 rest
      else (p1.1, .error perr)

/-- Mirror of embed_chunk_with_fallback.  fallback_chars and the strategy are
the env-derived parameters; a single-text embed call is the one-element
request.  The inner chunk_text call uses overlap 0, where fuel length+1 always
suffices (theorem chunkLoop_ov0_terminates). -/
def embed_chunk_with_fallback (ctx : EmbedCtx) (fallback_chars : Nat)
    (strategy : FallbackStrategy) (tr : EmbedTrace) (text : Str) :
    EmbedTrace × Except EmbedErr (Option Vec) :=
  let p1 := oembed ctx tr [text]
  match p1.2 with
  | .ok embeds => (p1.1, .ok embeds.head?)
  | .error err =>
    if ¬ is_embed_fallback_err err then (p1.1, .error err)
    else
      if fallback_chars = 0 ∨ text.length ≤ fallback_chars then (p1.1, .ok none)
      else
        let parts := (chunk_text (text.length + 1) text fallback_chars 0).getD []
        if parts.length ≤ 1 then (p1.1, .ok none)
        else
          let pe := embedPartsGo ctx p1.1 parts
          match pe.2 with
          | .error e2 => (pe.1, .error e2)
          | .ok embeds =>
            if embeds.isEmpty then (pe.1, .ok none)
            else
              match strategy with
              | .average => (pe.1, .ok (average_embeddings embeds))
              | .first => (pe.1, .ok embeds.head?)

/-- The per-chunk fallback loop inside embed_with_batches: embed each text of
the batch individually; the question-mark operator propagates any error. -/
def embedEachChunk (ctx : EmbedCtx) (fb : Nat) (strat : FallbackStrategy) :
    EmbedTrace → List Str → EmbedTrace × Except EmbedErr (List (Option Vec))
  | tr, [] => (tr, .ok [])
  | tr, t :: rest =>
    let p := embed_chunk_with_fallback ctx fb strat tr t
    match p.2 with
    | .error e => (p.1, .error e)
    | .ok ov =>
      let pr := embedEachChunk ctx fb strat p.1 rest
      (pr.1, pr.2.map (fun l => ov :: l))

/-- The per-batch step of embed_with_batches: on a full answer of matching
length, take it; on a count mismatch or a fallback-class error, re-embed the
batch chunk by chunk; any other error propagates. -/
def ewbFront (ctx : EmbedCtx) (fb : Nat) (strat : FallbackStrategy)
    (p : EmbedTrace × Except EmbedErr (List Vec)) (batch : List Str) :
    EmbedTrace × Except EmbedErr (List (Option Vec)) :=
  match p.2 with
  | .ok embeds =>
    if embeds.length = batch.length then (p.1, .ok (embeds.map some))
    else embedEachChunk ctx fb strat p.1 batch
  | .error e =>
    if is_embed_fallback_err e then embedEachChunk ctx fb strat p.1 batch
    else (p.1, .error e)

/-- The batching loop of embed_with_batches.  B is the env-derived batch size,
always at least 1; fuel = texts.length in the wrapper, consumed once per
batch, never exhausted for positive B. -/
def ewbGo (ctx : EmbedCtx) (B fb : Nat) (strat : FallbackStrategy) :
    Nat → EmbedTrace → List Str → EmbedTrace × Except EmbedErr (List (Option Vec))
  | 0, tr, _ => (tr, .ok [])
  | fuel + 1, tr, texts =>
    if texts.isEmpty then (tr, .ok [])
    else
      let batch := texts.take B
      let front := ewbFront ctx fb strat
        (embed_batch_with_retry ctx tr batch) batch
      match front.2 with
      | .error e => (front.1, .error e)
      | .ok done =>
        let pr := ewbGo ctx B fb strat fuel front.1 (texts.drop B)
        (pr.1, pr.2.map (fun back => done ++ back))

/-- Mirror of embed_with_batches. -/
def embed_with_batches (ctx : EmbedCtx) (B fb : Nat) (strat : FallbackStrategy)
    (tr : EmbedTrace) (texts : List Str) :
    EmbedTrace × Except EmbedErr (List (Option Vec)) :=
  ewbGo ctx B fb strat texts.length tr texts

/-! ## Store rows and schema management (library.rs: ensure_schema)

Tables become in-memory lists.  The base tables (meta, files, chunks,
targets) are created IF NOT EXISTS and in the model always exist; the two
virtual tables chunks_fts and vec_chunks can be absent (none) and carry their
rows, vec_chunks also its declared dimension. -/

/-- A row of the files table. -/
structure FileRow where
  path : String
  kind : String
  hash : String
  size : Int
  mtime : Int
  indexed_at : Int
deriving DecidableEq

/-- A row of the chunks table. -/
structure ChunkRow where
  id : Nat
  file_path : String
  page : Int
  chunk_index : Int
  lang : Option String
  text : Str
deriving DecidableEq

/-- The store state seen by ensure_schema. -/
structure SDb where
  meta : List (String × String)
  files : List FileRow
  chunks : List ChunkRow
  fts : Option (List (Nat × Str))
  vec : Option (Nat × List (Nat × Vec))
deriving DecidableEq

/-- Digit value of a char, for the decimal parser. -/
def digitVal (c : Char) : Option Nat :=
  if 48 ≤ c.toNat ∧ c.toNat ≤ 57 then some (c.toNat - 48) else none

/-- Accumulating decimal parser over chars; none on any non-digit. -/
def parseDigits : Nat → List Char → Option Nat
  | acc, [] => some acc
  | acc, c :: rest =>
    match digitVal c with
    | some d => parseDigits (acc * 10 + d) rest
    | none => none

/-- Mirror of str::parse::<i64>().ok(): optional sign, at least one digit,
nothing else.  The stored values are far below the i64 range, so overflow is
not modelled. -/
def rustParseI64 (s : String) : Option Int :=
  match s.data with
  | [] => none
  | c :: rest =>
    if c = Char.ofNat 45 then
      match rest with
      | [] => none
      | _ => (parseDigits 0 rest).map (fun n => -(n : Int))
    else if c = Char.ofNat 43 then
      match rest with
      | [] => none
      | _ => (parseDigits 0 rest).map (fun n => (n : Int))
    else (parseDigits 0 (c :: rest)).map (fun n => (n : Int))

/-- INSERT OR REPLACE INTO meta(key,value). -/
def metaSet (m : List (String × String)) (k v : String) :
    List (String × String) :=
  (k, v) :: m.filter (fun kv => kv.1 ≠ k)

/-- Mirror of ensure_schema: read the three persisted meta values (a value
that exists but does not parse as an integer reads as absent, as in the
source); if any parsed value differs from the current one, drop both virtual
tables, delete all chunks and files and the three meta keys; then write the
three current values and create the virtual tables IF NOT EXISTS, vec_chunks
with dimension dim. -/
def ensure_schema (db : SDb) (dim : Nat) (chunk_size chunk_overlap : Nat) : SDb :=
  let old_dim := (db.meta.lookup "embedding_dim").bind rustParseI64
  let old_cs := (db.meta.lookup "chunk_size").bind rustParseI64
  let old_co := (db.meta.lookup "chunk_overlap").bind rustParseI64
  let schema_changed :=
    (match old_dim with
     | some o => decide (o ≠ (dim : Int))
     | none => false) ||
    (match old_cs with
     | some o => decide (o ≠ (chunk_size : Int))
     | none => false) ||
    (match old_co with
     | some o => decide (o ≠ (chunk_overlap : Int))
     | none => false)
  let db1 :=
    if schema_changed then
      { db with
        vec := none
        fts := none
        chunks := []
        files := []
        meta := db.meta.filter (fun kv =>
          kv.1 ≠ "embedding_dim" ∧ kv.1 ≠ "chunk_size" ∧ kv.1 ≠ "chunk_overlap") }
    else db
  { db1 with
    meta := metaSet (metaSet (metaSet db1.meta
      "embedding_dim" (toString dim)) "chunk_size" (toString chunk_size))
      "chunk_overlap" (toString chunk_overlap),
    fts := some (db1.fts.getD []),
    vec := some (db1.vec.getD (dim, [])) }

/-! ## Targets registry (library.rs: save_targets, list_targets)

now_ts is a monotone clock oracle indexed by insertion count; ORDER BY
added_at is a stable sort over the table in insertion order, matching the
rowid scan order of the underlying database. -/

/-- Mirror of IndexTargetKind. -/
inductive IndexTargetKind where
  | file : IndexTargetKind
  | folder : IndexTargetKind
deriving DecidableEq

/-- Mirror of IndexTarget. -/
structure IndexTarget where
  path : String
  kind : IndexTargetKind
  include_subfolders : Bool
deriving DecidableEq

/-- A row of the targets table (include_subfolders stored as 0/1). -/
structure TargetRow where
  path : String
  kind : String
  include_subfolders : Int
  added_at : Int
deriving DecidableEq

/-- The kind string written by save_targets. -/
def kindStr : IndexTargetKind → String
  | .folder => "folder"
  | .file => "file"

/-- INSERT OR REPLACE INTO targets, primary key (path, kind): drop any row
with the same key, append the new row. -/
def targetInsertOrReplace (rows : List TargetRow) (r : TargetRow) :
    List TargetRow :=
  rows.filter (fun q => ¬(q.path = r.path ∧ q.kind = r.kind)) ++ [r]

/-- The insertion loop of save_targets; n counts rows inserted so far and
indexes the now_ts clock. -/
def save_targets_go (clock : Nat → Int) :
    Nat → List TargetRow → List IndexTarget → List TargetRow
  | _, rows, [] => rows
  | n, rows, t :: rest =>
    save_targets_go clock (n + 1)
      (targetInsertOrReplace rows
        { path := t.path, kind := kindStr t.kind,
          include_subfolders := if t.include_subfolders then 1 else 0,
          added_at := clock n }) rest

/-- Mirror of save_targets: DELETE FROM targets (the prior table is
discarded), then insert every entry with a now timestamp. -/
def save_targets (clock : Nat → Int) (prior : List TargetRow)
    (targets : List IndexTarget) : List TargetRow :=
  let _ := prior
  save_targets_go clock 0 [] targets

/-- Stable insertion into a list sorted by added_at. -/
def insertByAdded (r : TargetRow) : List TargetRow → List TargetRow
  | [] => [r]
  | q :: rest =>
    if r.added_at ≤ q.added_at then r :: q :: rest
    else q :: insertByAdded r rest

/-- Stable sort by added_at: the model of ORDER BY added_at ASC. -/
def sortByAdded : List TargetRow → List TargetRow
  | [] => []
  | r :: rest => insertByAdded r (sortByAdded rest)

/-- Mirror of list_targets: read rows ordered by added_at; kind string
"folder" maps to Folder, anything else to File; include_subfolders is the
stored integer compared with 0. -/
def list_targets (rows : List TargetRow) : List IndexTarget :=
  (sortByAdded rows).map (fun r =>
    { path := r.path,
      kind := if r.kind = "folder" then .folder else .file,
      include_subfolders := decide (r.include_subfolders ≠ (0 : Int)) })

/-- The rows save_targets produces for a collision-free list, starting at
clock index n: one row per target, in order, timestamped clock n, clock n+1,
and so on. -/
def buildRows (clock : Nat → Int) : Nat → List IndexTarget → List TargetRow
  | _, [] => []
  | n, t :: rest =>
    { path := t.path, kind := kindStr t.kind,
      include_subfolders := if t.include_subfolders then 1 else 0,
      added_at := clock n } :: buildRows clock (n + 1) rest

/-! ## Indexer (library.rs: file_fingerprint, index_documents)

SHA-256 is an abstract hash function over byte sequences; the file system is
a partial map from path to metadata; the extractor and the language detector
are oracles.  One loop iteration of index_documents over a single document is
modelled; the skip branch is the subject of C1. -/

/-- i64::to_le_bytes, little-endian, k bytes. -/
def toLeBytes : Nat → Nat → List Nat
  | 0, _ => []
  | k + 1, n => n % 256 :: toLeBytes k (n / 256)

/-- The 8 little-endian bytes of an i64 (two's complement). -/
def le64 (n : Int) : List Nat := toLeBytes 8 ((n % (2 ^ 64)).toNat)

/-- The UTF-8 bytes of a path string (to_string_lossy().as_bytes()). -/
def strBytes (s : String) : List Nat := encodeChars s.data

/-- The abstract SHA-256: a function from byte sequences to hex strings. -/
abbrev HashFn := List Nat → String

/-- Mirror of file_fingerprint's hash: SHA-256 over path bytes, then the
little-endian size, then the little-endian mtime. -/
def file_fingerprint (h : HashFn) (path : String) (size mtime : Int) : String :=
  h (strBytes path ++ le64 size ++ le64 mtime)

/-- An index_progress event payload. -/
structure IndexProgress where
  current : Nat
  total : Nat
  file : String
  status : String
deriving DecidableEq

/-- File metadata as returned by fs::metadata. -/
structure FsMeta where
  size : Int
  mtime : Int
deriving DecidableEq

/-- The external collaborators of one indexing step. -/
structure IndexOracles where
  hash : HashFn
  fsFile : String → Option FsMeta
  extract : String → Except String (List Str)
  detectLang : Str → Option String

/-- The database state touched by index_documents. -/
structure Db where
  files : List FileRow
  chunks : List ChunkRow
  fts : List (Nat × Str)
  vec : List (Nat × Vec)
  nextId : Nat
deriving DecidableEq

/-- Result of one per-document iteration: diverge when chunk_text does not
terminate; abort when an embedding error propagates out of the whole run
(the question-mark on embed_with_batches); next with the new database, the
new trace, and the progress events of this document. -/
inductive StepRes where
  | diverge : StepRes
  | abort (tr : EmbedTrace) (e : EmbedErr) : StepRes
  | next (db : Db) (tr : EmbedTrace) (events : List IndexProgress) : StepRes
deriving DecidableEq

/-- Chunk every page: page index, per-page chunk ordinal, detected language,
text — in page order then chunk order, as the source's double loop builds
chunk_meta and chunk_texts. -/
def collectChunks (ors : IndexOracles) (cs co : Nat) (pages : List Str) :
    Option (List ((Int × Int) × Option String × Str)) :=
  (pages.enum.mapM (fun pc =>
    (chunk_text (pc.2.length + 1) pc.2 cs co).map (fun chunks =>
      chunks.enum.map (fun cc =>
        ((Int.ofNat pc.1, Int.ofNat cc.1), ors.detectLang cc.2, cc.2))))).map
    List.flatten

/-- The per-file transaction: delete the file's vector, FTS and chunk rows,
upsert the file row, then insert the surviving chunks with fresh rowids and
matching FTS and vector rows. -/
def writeDoc (db : Db) (path kind hash : String) (size mtime now : Int)
    (rows : List (((Int × Int) × Option String × Str) × Vec)) : Db :=
  let oldIds := (db.chunks.filter (fun c => c.file_path = path)).map (fun c => c.id)
  let base : Db :=
    { files := db.files.filter (fun r => r.path ≠ path) ++
        [{ path := path, kind := kind, hash := hash, size := size,
           mtime := mtime, indexed_at := now }],
      chunks := db.chunks.filter (fun c => c.file_path ≠ path),
      fts := db.fts.filter (fun r => ¬ r.1 ∈ oldIds),
      vec := db.vec.filter (fun r => ¬ r.1 ∈ oldIds),
      nextId := db.nextId }
  rows.foldl (fun acc row =>
    let id := acc.nextId
    { files := acc.files,
      chunks := acc.chunks ++
        [{ id := id, file_path := path, page := row.1.1.1,
           chunk_index := row.1.1.2, lang := row.1.2.1, text := row.1.2.2 }],
      fts := acc.fts ++ [(id, row.1.2.2)],
      vec := acc.vec ++ [(id, row.2)],
      nextId := id + 1 }) base

/-- One iteration of the document loop of index_documents (emit_progress
true): missing check, fingerprint comparison and skip, extraction, chunking,
embedding, partition into produced and skipped chunks, transaction, events. -/
def indexDocStep (ors : IndexOracles) (ctx : EmbedCtx) (B fb : Nat)
    (strat : FallbackStrategy) (chunk_size chunk_overlap : Nat) (now : Int)
    (total i : Nat) (docPath docKind : String) (db : Db) (tr : EmbedTrace) :
    StepRes :=
  match ors.fsFile docPath with
  | none => .next db tr [⟨i + 1, total, docPath, "missing"⟩]
  | some md =>
    let hash := file_fingerprint ors.hash docPath md.size md.mtime
    let old_hash := (db.files.find? (fun r => r.path = docPath)).map (fun r => r.hash)
    if old_hash = some hash then
      .next db tr [⟨i + 1, total, docPath, "skip"⟩]
    else
      match ors.extract docPath with
      | .error _ =>
        .next db tr [⟨i + 1, total, docPath, "extract"⟩,
          ⟨i + 1, total, docPath, "error"⟩]
      | .ok pages =>
        match collectChunks ors chunk_size chunk_overlap pages with
        | none => .diverge
        | some items =>
          let chunk_texts := items.map (fun it => it.2.2)
          let pe :=
            if chunk_texts.isEmpty then (tr, .ok [])
            else embed_with_batches ctx B fb strat tr chunk_texts
          match pe.2 with
          | .error e => .abort pe.1 e
          | .ok embeds =>
            let produced := (items.zip embeds).filterMap (fun it =>
              match it.2 with
              | some emb => some (it.1, emb)
              | none => none)
            if ¬ chunk_texts.isEmpty ∧ produced.isEmpty then
              .next db pe.1 [⟨i + 1, total, docPath, "extract"⟩,
                ⟨i + 1, total, docPath, "error"⟩]
            else
              .next (writeDoc db docPath docKind hash md.size md.mtime now produced)
                pe.1 [⟨i + 1, total, docPath, "extract"⟩,
                  ⟨i + 1, total, docPath, "done"⟩]

/-! # Theorems -/

theorem filter_tokens_eq (alnum : Char → Bool) :
    ∀ (toks : List Str),
      ((toks.map (sanitize_fts_token alnum)).filter
        (fun t => decide (1 < byteLen t))).map (fun t => t ++ ['*']) =
      toks.filterMap (fun tok =>
        let s := tok.filter alnum
        if 2 ≤ byteLen s then some (s ++ ['*']) else none) := by
  intro toks
  induction toks with
  | nil => rfl
  | cons t ts ih =>
    by_cases hb : 2 ≤ byteLen (t.filter alnum)
    · simpa [sanitize_fts_token, List.filter_cons, List.filterMap_cons, hb,
        Nat.lt_iff_add_one_le] using ih
    · simpa [sanitize_fts_token, List.filter_cons, List.filterMap_cons, hb,
        Nat.lt_iff_add_one_le] using ih

/-- C8: the FTS query builder splits on whitespace, keeps the alphanumeric
chars of each token, discards tokens shorter than 2 length units, suffixes
the survivors with a star and joins them with single spaces, returning none
when no token survives; "a b cd" yields "cd*" and "a" yields none. -/
theorem C8_build_fts_query_spec :
    (∀ (alnum : Char → Bool) (input : Str),
      build_fts_query alnum input = ftsQuerySpec alnum input) ∧
    build_fts_query Char.isAlphanum ("a b cd").data = some ("cd*").data ∧
    build_fts_query Char.isAlphanum ("a").data = none := by
  refine ⟨?_, by decide, by decide⟩
  intro alnum input
  unfold build_fts_query ftsQuerySpec
  rw [filter_tokens_eq]
  cases (splitWs input).filterMap (fun tok =>
      let s := tok.filter alnum
      if 2 ≤ byteLen s then some (s ++ ['*']) else none) with
  | nil => rfl
  | cons a as => rfl

/-- C9: a watcher event for a path is rejected, and the timestamp map left
untouched, exactly when the last admitted event for that path is younger than
2 s; an admitted event records its timestamp; two events within 2 s collapse
to one and a third event 2.5 s after the first admitted one is admitted. -/
theorem C9_debounce :
    (∀ (m : DebounceMap) (now : Nat) (p : String) (prev : Nat),
        m.lookup p = some prev → now - prev < 2000 →
        should_process m now p = (false, m)) ∧
    (∀ (m : DebounceMap) (now : Nat) (p : String) (prev : Nat),
        m.lookup p = some prev → 2000 ≤ now - prev →
        should_process m now p = (true, debounceInsert m p now)) ∧
    (∀ (m : DebounceMap) (now : Nat) (p : String),
        m.lookup p = none →
        should_process m now p = (true, debounceInsert m p now)) ∧
    (∀ (m : DebounceMap) (now : Nat) (p : String),
        (debounceInsert m p now).lookup p = some now) ∧
    (should_process [] 0 "p" = (true, [("p", 0)]) ∧
     should_process [("p", 0)] 1900 "p" = (false, [("p", 0)]) ∧
     should_process [("p", 0)] 2500 "p" = (true, [("p", 2500)])) := by
  refine ⟨?_, ?_, ?_, ?_, by decide, by decide, by decide⟩
  · intro m now p prev hl hlt
    simp [should_process, hl, hlt]
  · intro m now p prev hl hge
    simp [should_process, hl, Nat.not_lt.mpr hge]
  · intro m now p hl
    simp [should_process, hl]
  · intro m now p
    simp [debounceInsert, List.lookup]

theorem chunkLoop_abc_stuck :
    ∀ (fuel : Nat) (acc : List Str),
      chunkLoop ("a bc").data 2 1 0 fuel 1 acc = none := by
  intro fuel
  induction fuel with
  | zero => intro acc; rfl
  | succ f ih =>
    intro acc
    have hstep : chunkLoop ("a bc").data 2 1 0 (f + 1) 1 acc =
        chunkLoop ("a bc").data 2 1 0 f 1 acc := rfl
    rw [hstep]
    exact ih acc

/-- C10: chunk_text does not terminate on every input with max_chars > 0.  On
input "a bc" with max_chars 2 and overlap 1 (which even satisfies the spec's
precondition overlap < max_chars) the loop reaches start = 1, snaps the end to
position 2 just after the space, emits nothing (the slice trims to empty), and
recomputes start = 2 - 1 = 1 forever: the loop never finishes, whatever fuel
it is given. -/
theorem C10_chunk_text_diverges :
    ∀ fuel : Nat, chunk_text fuel ("a bc").data 2 1 = none := by
  intro fuel
  cases fuel with
  | zero => rfl
  | succ f =>
    have h1 : chunk_text (f + 1) ("a bc").data 2 1 =
        chunkLoop ("a bc").data 2 1 0 f 1 [['a']] := rfl
    rw [h1]
    exact chunkLoop_abc_stuck f [['a']]

/-- C2 counterexample: on input "ab cdef" with max_chars 12 and overlap 0
(overlap < max_chars holds), the claim's algorithm keeps the hard cut, because
the boundary after "ab" sits at distance 3 < 12/3 from the start, and so emits
the whole string as one chunk; the source clamps max_chars to the char count 7
first, giving threshold 7/3 = 2 ≤ 3, snaps, and emits two chunks. -/
theorem C2_counterexample :
    chunkClaim 20 ("ab cdef").data 12 0 = some [("ab cdef").data] ∧
    chunk_text 20 ("ab cdef").data 12 0 =
      some [("ab").data, ("cdef").data] ∧
    some [("ab cdef").data] ≠ some [("ab").data, ("cdef").data] := by
  exact ⟨by decide, by decide, by decide⟩

/-- C6 counterexample: the targets table is keyed by (path, kind) and written
with INSERT OR REPLACE, so a list containing the same target twice reads back
as a single row: save_targets followed by list_targets does not return every
list unchanged. -/
theorem C6_counterexample :
    list_targets (save_targets (fun _ => 0) []
        [⟨"/a", .file, false⟩, ⟨"/a", .file, false⟩]) =
      [⟨"/a", .file, false⟩] ∧
    [(⟨"/a", .file, false⟩ : IndexTarget)] ≠
      [⟨"/a", .file, false⟩, ⟨"/a", .file, false⟩] := by
  exact ⟨by decide, by decide⟩

/-- C4 counterexample: an error that is neither a timeout nor an oversize
error does not propagate directly: the batch call sleeps 400 ms and retries
once.  With a server that always answers with such an error, the trace of a
two-element batch shows two identical HTTP calls and one 400 ms sleep before
the error propagates; the claim predicts a single call. -/
theorem C4_counterexample :
    embed_batch_with_retry ⟨fun _ _ => .error .other⟩ ⟨[], []⟩
        [("a").data, ("b").data] =
      (⟨[[("a").data, ("b").data], [("a").data, ("b").data]], [400]⟩,
        .error .other) := rfl

theorem lastBoundary_eq_rangeFilter (chars : Str) (start : Nat) :
    ∀ e : Nat,
      lastBoundary chars start e =
        (((List.range' start (e - start)).filter
          (fun i => is_chunk_boundary (chars.getD i (Char.ofNat 0)))).getLast?).map
          (fun i => i + 1) := by
  intro e
  induction e with
  | zero =>
    rw [show (0 : Nat) - start = 0 from by omega]
    rfl
  | succ e ih =>
    by_cases hs : e < start
    · have h0 : e + 1 - start = 0 := by omega
      rw [lastBoundary, if_pos hs, h0]
      rfl
    · have hk : e + 1 - start = (e - start) + 1 := by omega
      rw [lastBoundary, if_neg hs, hk, List.range'_concat,
        show start + 1 * (e - start) = e from by omega, List.filter_append]
      cases hbv : is_chunk_boundary (chars.getD e (Char.ofNat 0)) with
      | true =>
        rw [if_pos rfl]
        have hf : List.filter
            (fun i => is_chunk_boundary (chars.getD i (Char.ofNat 0))) [e] =
            [e] := by
          simp only [List.filter_cons, List.filter_nil, hbv]
          simp
        rw [hf, List.getLast?_concat]
        rfl
      | false =>
        rw [if_neg (by simp)]
        have hf : List.filter
            (fun i => is_chunk_boundary (chars.getD i (Char.ofNat 0))) [e] =
            [] := by
          simp only [List.filter_cons, List.filter_nil, hbv]
          simp
        rw [hf, List.append_nil]
        exact ih

theorem chunkAmendedEnd_gt (chars : Str) (maxr start : Nat)
    (hm : 1 ≤ maxr) (hs : start < chars.length) :
    start < chunkAmendedEnd chars maxr start := by
  simp only [chunkAmendedEnd]
  cases hg : (((List.range' start (min (start + maxr) chars.length - start)).filter
      (fun i => is_chunk_boundary (chars.getD i (Char.ofNat 0)))).getLast?) with
  | none =>
    show start < min (start + maxr) chars.length
    omega
  | some i =>
    have hmem := List.mem_of_mem_getLast? hg
    have hi := (List.mem_filter.mp hmem).1
    have := (List.mem_range'_1.mp hi).1
    show start < if min maxr chars.length / 3 ≤ i + 1 - start then i + 1
      else min (start + maxr) chars.length
    by_cases hc : min maxr chars.length / 3 ≤ i + 1 - start
    · rw [if_pos hc]; omega
    · rw [if_neg hc]; omega

theorem chunkAmendedEnd_le (chars : Str) (maxr start : Nat) :
    chunkAmendedEnd chars maxr start ≤ chars.length := by
  simp only [chunkAmendedEnd]
  cases hg : (((List.range' start (min (start + maxr) chars.length - start)).filter
      (fun i => is_chunk_boundary (chars.getD i (Char.ofNat 0)))).getLast?) with
  | none =>
    show min (start + maxr) chars.length ≤ chars.length
    omega
  | some i =>
    have hmem := List.mem_of_mem_getLast? hg
    have hi := (List.mem_filter.mp hmem).1
    have hge := (List.mem_range'_1.mp hi).1
    have h2 := (List.mem_range'_1.mp hi).2
    show (if min maxr chars.length / 3 ≤ i + 1 - start then i + 1
      else min (start + maxr) chars.length) ≤ chars.length
    by_cases hc : min maxr chars.length / 3 ≤ i + 1 - start
    · rw [if_pos hc]; omega
    · rw [if_neg hc]; omega

theorem chunkEnd_eq_amended (chars : Str) (maxr start : Nat) :
    chunkEnd chars (min maxr chars.length) (min maxr chars.length / 3) start =
      chunkAmendedEnd chars maxr start := by
  have he0 : min (start + min maxr chars.length) chars.length =
      min (start + maxr) chars.length := by omega
  simp only [chunkEnd, chunkAmendedEnd, lastBoundary_eq_rangeFilter, he0]
  cases hg : (((List.range' start (min (start + maxr) chars.length - start)).filter
      (fun i => is_chunk_boundary (chars.getD i (Char.ofNat 0)))).getLast?) with
  | none => rfl
  | some i =>
    have hmem := List.mem_of_mem_getLast? hg
    have hi := (List.mem_filter.mp hmem).1
    have hge := (List.mem_range'_1.mp hi).1
    have hlt : start < i + 1 := by omega
    show (if start < i + 1 ∧ min maxr chars.length / 3 ≤ i + 1 - start
        then i + 1 else min (start + maxr) chars.length) =
      (if min maxr chars.length / 3 ≤ i + 1 - start then i + 1
        else min (start + maxr) chars.length)
    by_cases hc : min maxr chars.length / 3 ≤ i + 1 - start
    · rw [if_pos ⟨hlt, hc⟩, if_pos hc]
    · rw [if_neg (by tauto), if_neg hc]

theorem chunkLoop_eq_amended (chars : Str) (maxr ov : Nat)
    (hov : ov < maxr) (hne : chars ≠ []) :
    ∀ (fuel start : Nat) (acc : List Str),
      chunkLoop chars (min maxr chars.length)
          (min ov (min maxr chars.length - 1)) (min maxr chars.length / 3)
          fuel start acc =
        chunkAmendedLoop chars maxr ov fuel start acc := by
  have hlen : 1 ≤ chars.length := by
    cases chars with
    | nil => exact absurd rfl hne
    | cons a l => simp
  intro fuel
  induction fuel with
  | zero => intro start acc; rfl
  | succ f ih =>
    intro start acc
    rw [chunkLoop, chunkAmendedLoop]
    by_cases hs : start < chars.length
    · rw [if_pos hs]
      rw [chunkEnd_eq_amended]
      have hgt := chunkAmendedEnd_gt chars maxr start (by omega) hs
      have hle := chunkAmendedEnd_le chars maxr start
      rw [if_neg (by omega)]
      by_cases hdone : chunkAmendedEnd chars maxr start = chars.length
      · rw [if_pos hdone, if_pos hdone]
      · rw [if_neg hdone, if_neg hdone]
        have hsub : chunkAmendedEnd chars maxr start -
            min ov (min maxr chars.length - 1) =
            chunkAmendedEnd chars maxr start - ov := by omega
        rw [hsub]
        exact ih _ _
    · rw [if_neg hs]
      have hge : chars.length ≤ start := by omega
      have he0 : min (start + maxr) chars.length = chars.length := by omega
      have hr : chars.length - start = 0 := by omega
      have hend : chunkAmendedEnd chars maxr start = chars.length := by
        unfold chunkAmendedEnd
        simp only [he0, hr, List.range', List.filter_nil, List.getLast?_nil,
          Option.map_none]
      rw [hend]
      have hdrop : chars.drop start = [] := List.drop_eq_nil_of_le hge
      simp [hdrop, trimChars]

theorem chunk_text_eq_amended (fuel : Nat) (s : Str) (maxr ov : Nat)
    (hov : ov < maxr) :
    chunk_text fuel s maxr ov = chunkAmended fuel s maxr ov := by
  unfold chunk_text chunkAmended
  have hm0 : (maxr == 0) = false := by
    simp only [beq_eq_false_iff_ne]; omega
  by_cases he : (trimChars s).isEmpty
  · simp [he]
  · simp only [he, hm0, Bool.or_false, if_neg, Bool.false_eq_true,
      not_false_iff]
    exact chunkLoop_eq_amended (trimChars s) maxr ov hov
      (by simpa [List.isEmpty_iff] using he) fuel 0 []

/-- C2 (amended): the chunker follows the claimed algorithm with one change
the counterexample forces: the snap threshold is computed from max_chars
clamped to the input's char count, min(max_chars, length)/3, not from
max_chars itself.  With that amendment the algorithms agree on every input
with overlap < max_chars, and the two quoted examples hold as stated. -/
theorem C2_chunk_text_algorithm :
    (∀ (fuel : Nat) (s : Str) (maxr ov : Nat), ov < maxr →
        chunk_text fuel s maxr ov = chunkAmended fuel s maxr ov) ∧
    chunk_text 20 ("abcdefgh").data 3 1 =
      some [("abc").data, ("cde").data, ("efg").data, ("gh").data] ∧
    chunk_text 20 ("alpha beta gamma").data 10 0 =
      some [("alpha").data, ("beta").data, ("gamma").data] := by
  exact ⟨fun fuel s maxr ov hov => chunk_text_eq_amended fuel s maxr ov hov,
    by decide, by decide⟩

/-- Closed instance of C2's amended theorem at a concrete input. -/
theorem C2_chunk_text_algorithm_witness :
    chunk_text 9 ("ab cd").data 4 1 = chunkAmended 9 ("ab cd").data 4 1 :=
  C2_chunk_text_algorithm.1 9 ("ab cd").data 4 1 (by decide)

/-- Closed instance of C9's debounce theorem at concrete inputs. -/
theorem C9_debounce_witness :
    should_process [("q", 10)] 11 "q" = (false, [("q", 10)]) ∧
    should_process [("q", 10)] 2500 "q" =
      (true, debounceInsert [("q", 10)] "q" 2500) ∧
    should_process [] 5 "q" = (true, debounceInsert [] "q" 5) ∧
    (debounceInsert [] "q" 5).lookup "q" = some 5 :=
  ⟨C9_debounce.1 [("q", 10)] 11 "q" 10 rfl (by decide),
   C9_debounce.2.1 [("q", 10)] 2500 "q" 10 rfl (by decide),
   C9_debounce.2.2.1 [] 5 "q" rfl,
   C9_debounce.2.2.2.1 [] 5 "q"⟩

theorem utf8Bytes_length (c : Char) : (utf8Bytes c).length = utf8Len c := by
  simp only [utf8Bytes, utf8Len]
  split_ifs <;> rfl

theorem encodeChars_length (cs : Str) :
    (encodeChars cs).length = byteLen cs := by
  induction cs with
  | nil => rfl
  | cons c rest ih =>
    simp [encodeChars, byteLen, utf8Bytes_length, List.map_cons] at ih ⊢
    omega

theorem encodeChars_append (xs ys : Str) :
    encodeChars (xs ++ ys) = encodeChars xs ++ encodeChars ys := by
  simp [encodeChars]

theorem byteLen_append (xs ys : Str) :
    byteLen (xs ++ ys) = byteLen xs + byteLen ys := by
  simp [byteLen]

theorem boundaries_length (cs : Str) :
    (boundaries cs).length = cs.length + 1 := by
  induction cs with
  | nil => rfl
  | cons c rest ih => simp [boundaries, ih]

theorem boundaries_getD (cs : Str) :
    ∀ i : Nat, i ≤ cs.length → (boundaries cs).getD i 0 = byteLen (cs.take i) := by
  induction cs with
  | nil =>
    intro i hi
    have : i = 0 := by simpa using hi
    subst this
    rfl
  | cons c rest ih =>
    intro i hi
    cases i with
    | zero => rfl
    | succ j =>
      have hj : j ≤ rest.length := by simpa using hi
      have hb : j < (boundaries rest).length := by
        rw [boundaries_length]; omega
      have hv : (boundaries rest)[j]? = some ((boundaries rest).getD j 0) := by
        rw [List.getElem?_eq_getElem hb]
        simp [List.getD, List.getElem?_eq_getElem hb]
      show ((boundaries rest).map (fun b => utf8Len c + b)).getD j 0 =
        byteLen (c :: rest.take j)
      rw [List.getD_eq_getElem?_getD, List.getElem?_map, hv]
      simp only [Option.map_some', Option.getD_some]
      rw [ih j hj]
      simp [byteLen]

theorem encode_slice (cs : Str) (i j : Nat) (hij : i ≤ j) (hj : j ≤ cs.length) :
    ((encodeChars cs).drop ((boundaries cs).getD i 0)).take
        ((boundaries cs).getD j 0 - (boundaries cs).getD i 0) =
      encodeChars ((cs.drop i).take (j - i)) := by
  rw [boundaries_getD cs i (le_trans hij hj), boundaries_getD cs j hj]
  have hmid : cs.take j = cs.take i ++ (cs.drop i).take (j - i) := by
    conv_lhs => rw [show j = i + (j - i) from by omega]
    exact List.take_add cs i (j - i)
  have e1 : encodeChars cs = encodeChars (cs.take i) ++ encodeChars (cs.drop i) := by
    rw [← encodeChars_append, List.take_append_drop]
  rw [e1, show byteLen (cs.take i) = (encodeChars (cs.take i)).length from
    (encodeChars_length _).symm, List.drop_left]
  have e2 : encodeChars (cs.drop i) =
      encodeChars ((cs.drop i).take (j - i)) ++
        encodeChars ((cs.drop i).drop (j - i)) := by
    rw [← encodeChars_append, List.take_append_drop]
  have e3 : byteLen (cs.take j) - (encodeChars (cs.take i)).length =
      (encodeChars ((cs.drop i).take (j - i))).length := by
    rw [encodeChars_length, encodeChars_length, hmid, byteLen_append]
    omega
  rw [e2, e3, List.take_left]

theorem mem_of_mem_trimChars {a : Char} {xs : Str} (h : a ∈ trimChars xs) :
    a ∈ xs := by
  unfold trimChars at h
  rw [List.mem_reverse] at h
  have h2 := List.Sublist.mem h (List.dropWhile_sublist _)
  rw [List.mem_reverse] at h2
  exact List.Sublist.mem h2 (List.dropWhile_sublist _)

theorem chunkLoop_chunks_mem (chars : Str) (maxc ov minb : Nat) :
    ∀ (fuel start : Nat) (acc out : List Str),
      chunkLoop chars maxc ov minb fuel start acc = some out →
      (∀ ch ∈ acc, ∀ a ∈ ch, a ∈ chars) →
      ∀ ch ∈ out, ∀ a ∈ ch, a ∈ chars := by
  intro fuel
  induction fuel with
  | zero =>
    intro start acc out h
    exact absurd h (by simp [chunkLoop])
  | succ f ih =>
    intro start acc out h hacc
    simp only [chunkLoop] at h
    by_cases hs : start < chars.length
    · rw [if_pos hs] at h
      by_cases hbr : chunkEnd chars maxc minb start ≤ start
      · rw [if_pos hbr] at h
        cases h
        exact hacc
      · rw [if_neg hbr] at h
        have hacc2 : ∀ ch ∈ (if (trimChars ((chars.drop start).take
              (chunkEnd chars maxc minb start - start))).isEmpty then acc
            else acc ++ [trimChars ((chars.drop start).take
              (chunkEnd chars maxc minb start - start))]),
            ∀ a ∈ ch, a ∈ chars := by
          by_cases hemp : (trimChars ((chars.drop start).take
              (chunkEnd chars maxc minb start - start))).isEmpty
          · rw [if_pos hemp]; exact hacc
          · rw [if_neg hemp]
            intro ch hch a ha
            rcases List.mem_append.mp hch with hin | hin
            · exact hacc ch hin a ha
            · have : ch = trimChars ((chars.drop start).take
                  (chunkEnd chars maxc minb start - start)) := by
                simpa using hin
              subst this
              exact List.mem_of_mem_drop
                (List.mem_of_mem_take (mem_of_mem_trimChars ha))
        by_cases hend : chunkEnd chars maxc minb start = chars.length
        · rw [if_pos hend] at h
          cases h
          exact hacc2
        · rw [if_neg hend] at h
          exact ih _ _ _ h hacc2
    · rw [if_neg hs] at h
      cases h
      exact hacc

/-- C7: every chunk boundary falls on a char boundary.  Part one: slicing the
UTF-8 bytes of the input at any two entries of the chunker's byte-offset
table yields exactly the UTF-8 encoding of the corresponding char range, so
no code point is ever cut.  Part two: every char of every emitted chunk is a
char of the input.  Part three: hence no chunk contains U+FFFD unless the
input already does. -/
theorem C7_chunk_text_utf8_safe :
    (∀ (cs : Str) (i j : Nat), i ≤ j → j ≤ cs.length →
      ((encodeChars cs).drop ((boundaries cs).getD i 0)).take
          ((boundaries cs).getD j 0 - (boundaries cs).getD i 0) =
        encodeChars ((cs.drop i).take (j - i))) ∧
    (∀ (fuel : Nat) (s : Str) (maxc ov : Nat) (out : List Str),
      chunk_text fuel s maxc ov = some out →
      ∀ ch ∈ out, ∀ a ∈ ch, a ∈ s) ∧
    (∀ (fuel : Nat) (s : Str) (maxc ov : Nat) (out : List Str),
      chunk_text fuel s maxc ov = some out →
      Char.ofNat 0xFFFD ∉ s → ∀ ch ∈ out, Char.ofNat 0xFFFD ∉ ch) := by
  have hmem : ∀ (fuel : Nat) (s : Str) (maxc ov : Nat) (out : List Str),
      chunk_text fuel s maxc ov = some out →
      ∀ ch ∈ out, ∀ a ∈ ch, a ∈ s := by
    intro fuel s maxc ov out h ch hch a ha
    unfold chunk_text at h
    by_cases hemp : (trimChars s).isEmpty || (maxc == 0)
    · rw [if_pos hemp] at h
      cases h
      simp at hch
    · rw [if_neg hemp] at h
      have := chunkLoop_chunks_mem (trimChars s) (min maxc (trimChars s).length)
        (min ov (min maxc (trimChars s).length - 1))
        (min maxc (trimChars s).length / 3) fuel 0 [] out h
        (by intro ch hch; simp at hch) ch hch a ha
      exact mem_of_mem_trimChars this
  refine ⟨fun cs i j hij hj => encode_slice cs i j hij hj, hmem, ?_⟩
  intro fuel s maxc ov out h hrepl ch hch hmemx
  exact hrepl (hmem fuel s maxc ov out h ch hch _ hmemx)

/-- Closed instance of C7 at concrete inputs: a byte slice of a two-char
string with a multi-byte char, and a concrete chunking run. -/
theorem C7_chunk_text_utf8_safe_witness :
    ((encodeChars ("aé").data).drop ((boundaries ("aé").data).getD 1 0)).take
        ((boundaries ("aé").data).getD 2 0 - (boundaries ("aé").data).getD 1 0) =
      encodeChars ((("aé").data.drop 1).take 1) ∧
    (∀ ch ∈ [("ab").data], ∀ a ∈ ch, a ∈ ("ab cd").data) := by
  constructor
  · exact C7_chunk_text_utf8_safe.1 ("aé").data 1 2 (by decide) (by decide)
  · intro ch hch a ha
    refine C7_chunk_text_utf8_safe.2.1 9 ("ab cd").data 2 0
      [("ab").data, ("cd").data] (by decide) ch ?_ a ha
    simp at hch
    simp [hch]

theorem embedEachChunk_ok_length (ctx : EmbedCtx) (fb : Nat)
    (strat : FallbackStrategy) :
    ∀ (batch : List Str) (tr tr2 : EmbedTrace) (l : List (Option Vec)),
      embedEachChunk ctx fb strat tr batch = (tr2, .ok l) →
      l.length = batch.length := by
  intro batch
  induction batch with
  | nil =>
    intro tr tr2 l h
    simp only [embedEachChunk] at h
    injection h with h1 h2
    injection h2 with h3
    rw [← h3]
    rfl
  | cons t rest ih =>
    intro tr tr2 l h
    simp only [embedEachChunk] at h
    split at h
    · exact absurd (congrArg Prod.snd h) (by simp)
    · rename_i ov hov
      cases hpr : embedEachChunk ctx fb strat
          (embed_chunk_with_fallback ctx fb strat tr t).1 rest with
      | mk tr3 r3 =>
        rw [hpr] at h
        cases r3 with
        | error e => exact absurd (congrArg Prod.snd h) (by simp [Except.map])
        | ok l2 =>
          have h2 := congrArg Prod.snd h
          simp only [Except.map] at h2
          injection h2 with h3
          rw [← h3]
          simp [ih _ _ _ hpr]

theorem ewbFront_ok_length (ctx : EmbedCtx) (fb : Nat)
    (strat : FallbackStrategy) (p : EmbedTrace × Except EmbedErr (List Vec))
    (batch : List Str) (tr4 : EmbedTrace) (done : List (Option Vec))
    (hd : ewbFront ctx fb strat p batch = (tr4, .ok done)) :
    done.length = batch.length := by
  simp only [ewbFront] at hd
  split at hd
  · rename_i embeds hemb
    split at hd
    · rename_i hl
      injection hd with hd1 hd2
      injection hd2 with hd3
      rw [← hd3]
      simpa using hl
    · exact embedEachChunk_ok_length ctx fb strat _ _ _ _ hd
  · rename_i e herr
    split at hd
    · exact embedEachChunk_ok_length ctx fb strat _ _ _ _ hd
    · exact absurd (congrArg Prod.snd hd) (by simp)

theorem ewbGo_ok_length (ctx : EmbedCtx) (B fb : Nat)
    (strat : FallbackStrategy) (hB : 0 < B) :
    ∀ (fuel : Nat) (texts : List Str) (tr tr2 : EmbedTrace)
      (l : List (Option Vec)),
      texts.length ≤ fuel →
      ewbGo ctx B fb strat fuel tr texts = (tr2, .ok l) →
      l.length = texts.length := by
  intro fuel
  induction fuel with
  | zero =>
    intro texts tr tr2 l hf h
    have : texts = [] := List.length_eq_zero.mp (by omega)
    subst this
    simp only [ewbGo] at h
    injection h with h1 h2
    injection h2 with h3
    rw [← h3]
    rfl
  | succ f ih =>
    intro texts tr tr2 l hf h
    simp only [ewbGo] at h
    by_cases hemp : texts.isEmpty
    · rw [if_pos hemp] at h
      injection h with h1 h2
      injection h2 with h3
      rw [← h3, List.isEmpty_iff.mp hemp]
      rfl
    · rw [if_neg hemp] at h
      have hne : texts ≠ [] := by simpa [List.isEmpty_iff] using hemp
      have hlen1 : 1 ≤ texts.length := by
        cases texts with
        | nil => exact absurd rfl hne
        | cons a b => simp
      cases hfr : ewbFront ctx fb strat
          (embed_batch_with_retry ctx tr (texts.take B)) (texts.take B) with
      | mk tr4 r4 =>
        rw [hfr] at h
        cases r4 with
        | error e => exact absurd (congrArg Prod.snd h) (by simp)
        | ok done =>
          cases hpr : ewbGo ctx B fb strat f tr4 (texts.drop B) with
          | mk tr5 r5 =>
            rw [hpr] at h
            cases r5 with
            | error e => exact absurd (congrArg Prod.snd h) (by simp [Except.map])
            | ok back =>
              have h2 := congrArg Prod.snd h
              simp only [Except.map] at h2
              injection h2 with h3
              rw [← h3]
              have hdl := ewbFront_ok_length ctx fb strat _ _ _ _ hfr
              have hbl := ih (texts.drop B) _ _ _ (by
                rw [List.length_drop]; omega) hpr
              rw [List.length_append, hdl, hbl, List.length_take,
                List.length_drop]
              omega

theorem ebrGo_first_ok (ctx : EmbedCtx) (fuel : Nat) (tr : EmbedTrace)
    (batch : List Str) (v : List Vec)
    (h : ctx.resp tr.calls.length batch = .ok v) :
    ebrGo ctx fuel tr batch =
      ({ calls := tr.calls ++ [batch], sleeps := tr.sleeps }, .ok v) := by
  cases fuel <;> simp [ebrGo, ebrBody, oembed, h]

theorem ewbGo_pure (f : Str → Vec) (B fb : Nat) (strat : FallbackStrategy)
    (hB : 0 < B) :
    ∀ (fuel : Nat) (texts : List Str) (tr : EmbedTrace),
      texts.length ≤ fuel →
      (ewbGo ⟨fun _ input => .ok (input.map f)⟩ B fb strat fuel tr texts).2 =
        .ok (texts.map (fun t => some (f t))) := by
  intro fuel
  induction fuel with
  | zero =>
    intro texts tr hf
    have : texts = [] := List.length_eq_zero.mp (by omega)
    subst this
    rfl
  | succ fl ih =>
    intro texts tr hf
    by_cases hemp : texts.isEmpty
    · rw [List.isEmpty_iff.mp hemp]
      rfl
    · have hne : texts ≠ [] := by simpa [List.isEmpty_iff] using hemp
      have hlen1 : 1 ≤ texts.length := by
        cases texts with
        | nil => exact absurd rfl hne
        | cons a b => simp
      have hbatch : embed_batch_with_retry ⟨fun _ input => .ok (input.map f)⟩
          tr (texts.take B) =
          ({ calls := tr.calls ++ [texts.take B], sleeps := tr.sleeps },
            .ok ((texts.take B).map f)) :=
        ebrGo_first_ok _ _ _ _ _ rfl
      simp only [ewbGo, if_neg hemp]
      rw [hbatch]
      simp only [ewbFront, List.length_map, eq_self_iff_true, if_true]
      rw [ih (texts.drop B) _ (by rw [List.length_drop]; omega)]
      simp only [Except.map, List.map_map]
      rw [show ((some ∘ f) : Str → Option Vec) = (fun t => some (f t)) from rfl,
        ← List.map_append, List.take_append_drop]

theorem ebrSplit_congr
    (r1 r2 : EmbedTrace → List Str → EmbedTrace × Except EmbedErr (List Vec))
    (tr : EmbedTrace) (batch : List Str)
    (h1 : ∀ tr', r1 tr' (batch.take (batch.length / 2)) =
      r2 tr' (batch.take (batch.length / 2)))
    (h2 : ∀ tr', r1 tr' (batch.drop (batch.length / 2)) =
      r2 tr' (batch.drop (batch.length / 2))) :
    ebrSplit r1 tr batch = ebrSplit r2 tr batch := by
  simp only [ebrSplit, h1]
  cases hpl : r2 tr (batch.take (batch.length / 2)) with
  | mk trl rl =>
    cases rl with
    | error el => rfl
    | ok lv => rw [h2]

theorem ebrBody_congr (ctx : EmbedCtx)
    (split1 split2 : EmbedTrace → EmbedErr → EmbedTrace × Except EmbedErr (List Vec))
    (tr : EmbedTrace) (batch : List Str)
    (h : ∀ tr1 e, (is_reqwest_timeout e && decide (1 < batch.length)) = true →
      split1 tr1 e = split2 tr1 e) :
    ebrBody ctx split1 tr batch = ebrBody ctx split2 tr batch := by
  simp only [ebrBody, oembed, sleepMs]
  cases hr : ctx.resp tr.calls.length batch with
  | ok v => rfl
  | error e1 =>
    cases hc1 : (is_reqwest_timeout e1 && decide (1 < batch.length)) with
    | true =>
      simp only [hc1, eq_self_iff_true, if_true]
      exact h _ _ hc1
    | false =>
      simp only [hc1, Bool.false_eq_true, if_false]
      cases hr2 : ctx.resp (tr.calls ++ [batch]).length batch with
      | ok v => rfl
      | error e2 =>
        cases hc2 : (is_reqwest_timeout e2 && decide (1 < batch.length)) with
        | true =>
          simp only [hc2, eq_self_iff_true, if_true]
          exact h _ _ hc2
        | false =>
          simp only [hc2, Bool.false_eq_true, if_false]

theorem ebrGo_small (ctx : EmbedCtx) (batch : List Str)
    (hs : batch.length ≤ 1) (fuel : Nat) (tr : EmbedTrace) :
    ebrGo ctx fuel tr batch = ebrGo ctx 0 tr batch := by
  cases fuel with
  | zero => rfl
  | succ f =>
    simp only [ebrGo]
    apply ebrBody_congr
    intro tr1 e hc
    have : decide (1 < batch.length) = false := by
      simp only [decide_eq_false_iff_not]
      omega
    rw [this, Bool.and_false] at hc
    exact absurd hc (by simp)

theorem ebrGo_fuel_irrel (ctx : EmbedCtx) :
    ∀ (n : Nat) (batch : List Str) (fuel1 fuel2 : Nat) (tr : EmbedTrace),
      batch.length ≤ n → batch.length ≤ fuel1 → batch.length ≤ fuel2 →
      ebrGo ctx fuel1 tr batch = ebrGo ctx fuel2 tr batch := by
  intro n
  induction n with
  | zero =>
    intro batch fuel1 fuel2 tr hn h1 h2
    rw [ebrGo_small ctx batch (by omega) fuel1,
      ebrGo_small ctx batch (by omega) fuel2]
  | succ m ih =>
    intro batch fuel1 fuel2 tr hn h1 h2
    by_cases hsmall : batch.length ≤ 1
    · rw [ebrGo_small ctx batch hsmall fuel1, ebrGo_small ctx batch hsmall fuel2]
    · have hb2 : 2 ≤ batch.length := by omega
      cases fuel1 with
      | zero => omega
      | succ f1 =>
        cases fuel2 with
        | zero => omega
        | succ f2 =>
          simp only [ebrGo]
          apply ebrBody_congr
          intro tr1 e hc
          apply ebrSplit_congr
          · intro tr'
            apply ih
            · rw [List.length_take]; omega
            · rw [List.length_take]; omega
            · rw [List.length_take]; omega
          · intro tr'
            apply ih
            · rw [List.length_drop]; omega
            · rw [List.length_drop]; omega
            · rw [List.length_drop]; omega

theorem ebrGo_split_to_retry (ctx : EmbedCtx) (batch : List Str)
    (f : Nat) (hf : batch.length ≤ f + 1) (hb2 : 2 ≤ batch.length)
    (tr1 : EmbedTrace) :
    ebrSplit (ebrGo ctx f) tr1 batch =
      ebrSplit (embed_batch_with_retry ctx) tr1 batch := by
  apply ebrSplit_congr
  · intro tr'
    apply ebrGo_fuel_irrel ctx (batch.take (batch.length / 2)).length
    · exact le_rfl
    · rw [List.length_take]; omega
    · exact le_rfl
  · intro tr'
    apply ebrGo_fuel_irrel ctx (batch.drop (batch.length / 2)).length
    · exact le_rfl
    · rw [List.length_drop]; omega
    · exact le_rfl

theorem noSplitCond (e : EmbedErr) (n : Nat)
    (hn : ¬(is_reqwest_timeout e = true ∧ 1 < n)) :
    (is_reqwest_timeout e && decide (1 < n)) = false := by
  cases hb : is_reqwest_timeout e with
  | false => rw [Bool.false_and]
  | true =>
    rw [Bool.true_and, decide_eq_false_iff_not]
    intro hlt
    exact hn ⟨hb, hlt⟩

theorem ebrGo_retry_ok (ctx : EmbedCtx) (fuel : Nat) (tr : EmbedTrace)
    (batch : List Str) (e1 : EmbedErr) (v : List Vec)
    (h1 : ctx.resp tr.calls.length batch = .error e1)
    (hc1 : (is_reqwest_timeout e1 && decide (1 < batch.length)) = false)
    (h2 : ctx.resp (tr.calls ++ [batch]).length batch = .ok v) :
    ebrGo ctx fuel tr batch =
      ({ calls := tr.calls ++ [batch] ++ [batch],
         sleeps := tr.sleeps ++ [400] }, .ok v) := by
  cases fuel <;>
    simp only [ebrGo, ebrBody, oembed, sleepMs, h1, hc1, Bool.false_eq_true,
      if_false, h2]

theorem ebrGo_retry_err (ctx : EmbedCtx) (fuel : Nat) (tr : EmbedTrace)
    (batch : List Str) (e1 e2 : EmbedErr)
    (h1 : ctx.resp tr.calls.length batch = .error e1)
    (hc1 : (is_reqwest_timeout e1 && decide (1 < batch.length)) = false)
    (h2 : ctx.resp (tr.calls ++ [batch]).length batch = .error e2)
    (hc2 : (is_reqwest_timeout e2 && decide (1 < batch.length)) = false) :
    ebrGo ctx fuel tr batch =
      ({ calls := tr.calls ++ [batch] ++ [batch],
         sleeps := tr.sleeps ++ [400] }, .error e2) := by
  cases fuel <;>
    simp only [ebrGo, ebrBody, oembed, sleepMs, h1, hc1, hc2,
      Bool.false_eq_true, if_false, h2]

/-- C4 (amended): a first-call timeout on a batch of more than one element
splits the batch in half and recurses on both halves.  Every other first-call
error — a timeout on a single-element batch, an oversize error, or any other
error — is retried once after a 400 ms sleep, not propagated directly; if the
retry also fails, a second-attempt timeout on a large batch splits, and any
other second error propagates. -/
theorem C4_embed_batch_retry_policy :
    (∀ (ctx : EmbedCtx) (tr : EmbedTrace) (batch : List Str) (e1 : EmbedErr),
        ctx.resp tr.calls.length batch = .error e1 →
        is_reqwest_timeout e1 = true → 1 < batch.length →
        embed_batch_with_retry ctx tr batch =
          ebrSplit (embed_batch_with_retry ctx)
            { calls := tr.calls ++ [batch], sleeps := tr.sleeps } batch) ∧
    (∀ (ctx : EmbedCtx) (tr : EmbedTrace) (batch : List Str) (e1 : EmbedErr)
        (v : List Vec),
        ctx.resp tr.calls.length batch = .error e1 →
        ¬(is_reqwest_timeout e1 = true ∧ 1 < batch.length) →
        ctx.resp (tr.calls.length + 1) batch = .ok v →
        embed_batch_with_retry ctx tr batch =
          ({ calls := tr.calls ++ [batch, batch],
             sleeps := tr.sleeps ++ [400] }, .ok v)) ∧
    (∀ (ctx : EmbedCtx) (tr : EmbedTrace) (batch : List Str) (e1 e2 : EmbedErr),
        ctx.resp tr.calls.length batch = .error e1 →
        ¬(is_reqwest_timeout e1 = true ∧ 1 < batch.length) →
        ctx.resp (tr.calls.length + 1) batch = .error e2 →
        ¬(is_reqwest_timeout e2 = true ∧ 1 < batch.length) →
        embed_batch_with_retry ctx tr batch =
          ({ calls := tr.calls ++ [batch, batch],
             sleeps := tr.sleeps ++ [400] }, .error e2)) ∧
    (∀ (ctx : EmbedCtx) (tr : EmbedTrace) (batch : List Str) (e1 e2 : EmbedErr),
        ctx.resp tr.calls.length batch = .error e1 →
        ¬(is_reqwest_timeout e1 = true ∧ 1 < batch.length) →
        ctx.resp (tr.calls.length + 1) batch = .error e2 →
        is_reqwest_timeout e2 = true → 1 < batch.length →
        embed_batch_with_retry ctx tr batch =
          ebrSplit (embed_batch_with_retry ctx)
            { calls := tr.calls ++ [batch, batch],
              sleeps := tr.sleeps ++ [400] } batch) := by
  refine ⟨?_, ?_, ?_, ?_⟩
  · intro ctx tr batch e1 h1 ht1 hlen
    have hb2 : 2 ≤ batch.length := by omega
    obtain ⟨f, hfe⟩ : ∃ f, batch.length = f + 1 := ⟨batch.length - 1, by omega⟩
    have hstep : embed_batch_with_retry ctx tr batch =
        ebrBody ctx (fun tr1 _e => ebrSplit (ebrGo ctx f) tr1 batch) tr batch := by
      unfold embed_batch_with_retry
      rw [hfe]
      rfl
    rw [hstep]
    simp only [ebrBody, oembed, h1]
    rw [if_pos (by rw [ht1]; simp only [Bool.true_and, decide_eq_true_eq]; omega)]
    exact ebrGo_split_to_retry ctx batch f (by omega) hb2 _
  · intro ctx tr batch e1 v h1 hn1 h2
    have h2L : ctx.resp (tr.calls ++ [batch]).length batch = .ok v := by
      simpa using h2
    have h := ebrGo_retry_ok ctx batch.length tr batch e1 v h1
      (noSplitCond e1 batch.length hn1) h2L
    rw [show embed_batch_with_retry ctx tr batch =
      ebrGo ctx batch.length tr batch from rfl, h]
    simp
  · intro ctx tr batch e1 e2 h1 hn1 h2 hn2
    have h2L : ctx.resp (tr.calls ++ [batch]).length batch = .error e2 := by
      simpa using h2
    have h := ebrGo_retry_err ctx batch.length tr batch e1 e2 h1
      (noSplitCond e1 batch.length hn1) h2L (noSplitCond e2 batch.length hn2)
    rw [show embed_batch_with_retry ctx tr batch =
      ebrGo ctx batch.length tr batch from rfl, h]
    simp
  · intro ctx tr batch e1 e2 h1 hn1 h2 ht2 hlen
    have hb2 : 2 ≤ batch.length := by omega
    obtain ⟨f, hfe⟩ : ∃ f, batch.length = f + 1 := ⟨batch.length - 1, by omega⟩
    have h2L : ctx.resp (tr.calls ++ [batch]).length batch = .error e2 := by
      simpa using h2
    have hstep : embed_batch_with_retry ctx tr batch =
        ebrBody ctx (fun tr1 _e => ebrSplit (ebrGo ctx f) tr1 batch) tr batch := by
      unfold embed_batch_with_retry
      rw [hfe]
      rfl
    rw [hstep]
    simp only [ebrBody, oembed, sleepMs, h1, noSplitCond e1 batch.length hn1,
      Bool.false_eq_true, if_false, h2L]
    rw [if_pos (by rw [ht2]; simp only [Bool.true_and, decide_eq_true_eq]; omega)]
    rw [ebrGo_split_to_retry ctx batch f (by omega) hb2 _]
    simp [List.append_assoc]

/-- Closed instance of C4's amended theorem: a non-timeout error on a
single-element batch is retried once and the second error propagates. -/
theorem C4_embed_batch_retry_policy_witness :
    embed_batch_with_retry ⟨fun _ _ => .error .other⟩ ⟨[], []⟩ [("a").data] =
      (⟨[[("a").data], [("a").data]], [400]⟩, .error .other) := by
  have h := C4_embed_batch_retry_policy.2.2.1 ⟨fun _ _ => .error .other⟩
    ⟨[], []⟩ [("a").data] .other .other rfl (by simp [is_reqwest_timeout])
    rfl (by simp [is_reqwest_timeout])
  simpa using h

theorem embed_chunk_with_fallback_single (ctx : EmbedCtx) (f : Str → Vec)
    (fb : Nat) (strat : FallbackStrategy) (tr : EmbedTrace) (t : Str)
    (hctx : ctx.resp tr.calls.length [t] = .ok [f t]) :
    embed_chunk_with_fallback ctx fb strat tr t =
      ({ calls := tr.calls ++ [[t]], sleeps := tr.sleeps }, .ok (some (f t))) := by
  simp [embed_chunk_with_fallback, oembed, hctx]

theorem embedEachChunk_pointwise (ctx : EmbedCtx) (f : Str → Vec)
    (hctx : ∀ (k : Nat) (t : Str), ctx.resp k [t] = .ok [f t])
    (fb : Nat) (strat : FallbackStrategy) :
    ∀ (batch : List Str) (tr : EmbedTrace),
      (embedEachChunk ctx fb strat tr batch).2 =
        .ok (batch.map (fun t => some (f t))) := by
  intro batch
  induction batch with
  | nil => intro tr; rfl
  | cons t rest ih =>
    intro tr
    simp only [embedEachChunk,
      embed_chunk_with_fallback_single ctx f fb strat tr t (hctx _ t)]
    cases hpr : embedEachChunk ctx fb strat
        { calls := tr.calls ++ [[t]], sleeps := tr.sleeps } rest with
    | mk tr3 r3 =>
      have hr3 := ih { calls := tr.calls ++ [[t]], sleeps := tr.sleeps }
      rw [hpr] at hr3
      simp only at hr3
      simp [hr3, Except.map]

theorem embedEachChunk_positional (ctx : EmbedCtx) (fb : Nat)
    (strat : FallbackStrategy) :
    ∀ (batch : List Str) (tr tr2 : EmbedTrace) (l : List (Option Vec)),
      embedEachChunk ctx fb strat tr batch = (tr2, .ok l) →
      ∀ (i : Nat) (hi : i < batch.length) (hl : i < l.length),
        ∃ tri : EmbedTrace,
          (embed_chunk_with_fallback ctx fb strat tri (batch.get ⟨i, hi⟩)).2 =
            .ok (l.get ⟨i, hl⟩) := by
  intro batch
  induction batch with
  | nil =>
    intro tr tr2 l h i hi hl
    exact absurd hi (by simp)
  | cons t rest ih =>
    intro tr tr2 l h i hi hl
    simp only [embedEachChunk] at h
    split at h
    · exact absurd (congrArg Prod.snd h) (by simp)
    · rename_i ov hov
      cases hpr : embedEachChunk ctx fb strat
          (embed_chunk_with_fallback ctx fb strat tr t).1 rest with
      | mk tr3 r3 =>
        rw [hpr] at h
        cases r3 with
        | error e => exact absurd (congrArg Prod.snd h) (by simp [Except.map])
        | ok l2 =>
          have h2 := congrArg Prod.snd h
          simp only [Except.map] at h2
          injection h2 with h3
          subst h3
          cases i with
          | zero =>
            refine ⟨tr, ?_⟩
            show (embed_chunk_with_fallback ctx fb strat tr t).2 =
              Except.ok ((ov :: l2).get ⟨0, hl⟩)
            rw [hov]
            rfl
          | succ j =>
            have hj : j < rest.length := by simpa using hi
            have hj2 : j < l2.length := by simpa using hl
            obtain ⟨tri, htri⟩ := ih _ _ _ hpr j hj hj2
            exact ⟨tri, htri⟩

theorem ewbGo_mismatch (f : Str → Vec) (B fb : Nat) (strat : FallbackStrategy)
    (hB : 0 < B) :
    ∀ (fuel : Nat) (texts : List Str) (tr : EmbedTrace),
      texts.length ≤ fuel →
      (ewbGo ⟨fun _ input => if input.length = 1
          then .ok (input.map f) else .ok []⟩ B fb strat fuel tr texts).2 =
        .ok (texts.map (fun t => some (f t))) := by
  intro fuel
  induction fuel with
  | zero =>
    intro texts tr hf
    have : texts = [] := List.length_eq_zero.mp (by omega)
    subst this
    rfl
  | succ fl ih =>
    intro texts tr hf
    by_cases hemp : texts.isEmpty
    · rw [List.isEmpty_iff.mp hemp]
      rfl
    · have hne : texts ≠ [] := by simpa [List.isEmpty_iff] using hemp
      have hlen1 : 1 ≤ texts.length := by
        cases texts with
        | nil => exact absurd rfl hne
        | cons a b => simp
      have htb : 1 ≤ (texts.take B).length := by
        rw [List.length_take]; omega
      by_cases hb1 : (texts.take B).length = 1
      · have hbatch : embed_batch_with_retry
            (⟨fun _ input => if input.length = 1
              then .ok (input.map f) else .ok []⟩ : EmbedCtx)
            tr (texts.take B) =
            ({ calls := tr.calls ++ [texts.take B], sleeps := tr.sleeps },
              .ok ((texts.take B).map f)) :=
          ebrGo_first_ok _ _ _ _ _ (by simp only [if_pos hb1])
        simp only [ewbGo, if_neg hemp]
        rw [hbatch]
        simp only [ewbFront, List.length_map, eq_self_iff_true, if_true]
        rw [ih (texts.drop B) _ (by rw [List.length_drop]; omega)]
        simp only [Except.map, List.map_map]
        rw [show ((some ∘ f) : Str → Option Vec) = (fun t => some (f t)) from rfl,
          ← List.map_append, List.take_append_drop]
      · have hbatch : embed_batch_with_retry
            (⟨fun _ input => if input.length = 1
              then .ok (input.map f) else .ok []⟩ : EmbedCtx)
            tr (texts.take B) =
            ({ calls := tr.calls ++ [texts.take B], sleeps := tr.sleeps },
              .ok []) :=
          ebrGo_first_ok _ _ _ _ _ (by simp only [if_neg hb1])
        simp only [ewbGo, if_neg hemp]
        rw [hbatch]
        simp only [ewbFront, List.length_nil]
        rw [if_neg (by omega)]
        cases hfr : embedEachChunk
            (⟨fun _ input => if input.length = 1
              then .ok (input.map f) else .ok []⟩ : EmbedCtx) fb strat
            { calls := tr.calls ++ [texts.take B], sleeps := tr.sleeps }
            (texts.take B) with
        | mk tr4 r4 =>
          have hpw := embedEachChunk_pointwise
            (⟨fun _ input => if input.length = 1
              then .ok (input.map f) else .ok []⟩ : EmbedCtx) f
            (by intro k t; simp) fb strat (texts.take B)
            { calls := tr.calls ++ [texts.take B], sleeps := tr.sleeps }
          rw [hfr] at hpw
          simp only at hpw
          rw [hpw]
          rw [ih (texts.drop B) _ (by rw [List.length_drop]; omega)]
          simp only [Except.map]
          rw [← List.map_append, List.take_append_drop]

theorem ewbGo_oversize (f : Str → Vec) (B fb : Nat) (strat : FallbackStrategy)
    (hB : 0 < B) :
    ∀ (fuel : Nat) (texts : List Str) (tr : EmbedTrace),
      texts.length ≤ fuel →
      (ewbGo ⟨fun _ input => if input.length = 1
          then .ok (input.map f) else .error .tooLarge⟩ B fb strat fuel
          tr texts).2 =
        .ok (texts.map (fun t => some (f t))) := by
  intro fuel
  induction fuel with
  | zero =>
    intro texts tr hf
    have : texts = [] := List.length_eq_zero.mp (by omega)
    subst this
    rfl
  | succ fl ih =>
    intro texts tr hf
    by_cases hemp : texts.isEmpty
    · rw [List.isEmpty_iff.mp hemp]
      rfl
    · have hne : texts ≠ [] := by simpa [List.isEmpty_iff] using hemp
      have hlen1 : 1 ≤ texts.length := by
        cases texts with
        | nil => exact absurd rfl hne
        | cons a b => simp
      have htb : 1 ≤ (texts.take B).length := by
        rw [List.length_take]; omega
      by_cases hb1 : (texts.take B).length = 1
      · have hbatch : embed_batch_with_retry
            (⟨fun _ input => if input.length = 1
              then .ok (input.map f) else .error .tooLarge⟩ : EmbedCtx)
            tr (texts.take B) =
            ({ calls := tr.calls ++ [texts.take B], sleeps := tr.sleeps },
              .ok ((texts.take B).map f)) :=
          ebrGo_first_ok _ _ _ _ _ (by simp only [if_pos hb1])
        simp only [ewbGo, if_neg hemp]
        rw [hbatch]
        simp only [ewbFront, List.length_map, eq_self_iff_true, if_true]
        rw [ih (texts.drop B) _ (by rw [List.length_drop]; omega)]
        simp only [Except.map, List.map_map]
        rw [show ((some ∘ f) : Str → Option Vec) = (fun t => some (f t)) from rfl,
          ← List.map_append, List.take_append_drop]
      · have hbatch : embed_batch_with_retry
            (⟨fun _ input => if input.length = 1
              then .ok (input.map f) else .error .tooLarge⟩ : EmbedCtx)
            tr (texts.take B) =
            ({ calls := tr.calls ++ [texts.take B] ++ [texts.take B],
               sleeps := tr.sleeps ++ [400] }, .error .tooLarge) :=
          ebrGo_retry_err _ _ _ _ .tooLarge .tooLarge
            (by simp only [if_neg hb1]) rfl (by simp only [if_neg hb1]) rfl
        simp only [ewbGo, if_neg hemp]
        rw [hbatch]
        simp only [ewbFront]
        rw [if_pos (show is_embed_fallback_err EmbedErr.tooLarge = true from rfl)]
        cases hfr : embedEachChunk
            (⟨fun _ input => if input.length = 1
              then .ok (input.map f) else .error .tooLarge⟩ : EmbedCtx) fb strat
            { calls := tr.calls ++ [texts.take B] ++ [texts.take B],
              sleeps := tr.sleeps ++ [400] }
            (texts.take B) with
        | mk tr4 r4 =>
          have hpw := embedEachChunk_pointwise
            (⟨fun _ input => if input.length = 1
              then .ok (input.map f) else .error .tooLarge⟩ : EmbedCtx) f
            (by intro k t; simp) fb strat (texts.take B)
            { calls := tr.calls ++ [texts.take B] ++ [texts.take B],
              sleeps := tr.sleeps ++ [400] }
          rw [hfr] at hpw
          simp only at hpw
          rw [hpw]
          rw [ih (texts.drop B) _ (by rw [List.length_drop]; omega)]
          simp only [Except.map]
          rw [← List.map_append, List.take_append_drop]

/-- C3: for every server behaviour, when the pipeline returns a result at all
it returns one optional vector per input chunk (the output length equals the
input length on every path).  Position is preserved on every path the claim
names: with a server that embeds every request, with a server that answers
whole batches with too few vectors (forcing the count-mismatch per-chunk
path), and with a server that rejects whole batches as oversized (forcing the
timeout/oversize per-chunk fallback path), position i of the output is
exactly the embedding of input i; and for an arbitrary server, element i of
any per-chunk segment is the fallback-embedding result of input i of that
batch. -/
theorem C3_embed_with_batches_shape :
    (∀ (ctx : EmbedCtx) (B fb : Nat) (strat : FallbackStrategy)
        (tr tr2 : EmbedTrace) (texts : List Str) (out : List (Option Vec)),
        0 < B →
        embed_with_batches ctx B fb strat tr texts = (tr2, .ok out) →
        out.length = texts.length) ∧
    (∀ (f : Str → Vec) (B fb : Nat) (strat : FallbackStrategy)
        (tr : EmbedTrace) (texts : List Str),
        0 < B →
        (embed_with_batches ⟨fun _ input => .ok (input.map f)⟩ B fb strat
            tr texts).2 =
          .ok (texts.map (fun t => some (f t)))) ∧
    (∀ (f : Str → Vec) (B fb : Nat) (strat : FallbackStrategy)
        (tr : EmbedTrace) (texts : List Str),
        0 < B →
        (embed_with_batches ⟨fun _ input => if input.length = 1
            then .ok (input.map f) else .ok []⟩ B fb strat tr texts).2 =
          .ok (texts.map (fun t => some (f t)))) ∧
    (∀ (f : Str → Vec) (B fb : Nat) (strat : FallbackStrategy)
        (tr : EmbedTrace) (texts : List Str),
        0 < B →
        (embed_with_batches ⟨fun _ input => if input.length = 1
            then .ok (input.map f) else .error .tooLarge⟩ B fb strat
            tr texts).2 =
          .ok (texts.map (fun t => some (f t)))) ∧
    (∀ (ctx : EmbedCtx) (fb : Nat) (strat : FallbackStrategy)
        (tr tr2 : EmbedTrace) (batch : List Str) (l : List (Option Vec)),
        embedEachChunk ctx fb strat tr batch = (tr2, .ok l) →
        ∀ (i : Nat) (hi : i < batch.length) (hl : i < l.length),
          ∃ tri : EmbedTrace,
            (embed_chunk_with_fallback ctx fb strat tri
                (batch.get ⟨i, hi⟩)).2 =
              .ok (l.get ⟨i, hl⟩)) := by
  refine ⟨?_, ?_, ?_, ?_, ?_⟩
  · intro ctx B fb strat tr tr2 texts out hB h
    exact ewbGo_ok_length ctx B fb strat hB texts.length texts tr tr2 out
      le_rfl h
  · intro f B fb strat tr texts hB
    exact ewbGo_pure f B fb strat hB texts.length texts tr le_rfl
  · intro f B fb strat tr texts hB
    exact ewbGo_mismatch f B fb strat hB texts.length texts tr le_rfl
  · intro f B fb strat tr texts hB
    exact ewbGo_oversize f B fb strat hB texts.length texts tr le_rfl
  · intro ctx fb strat tr tr2 batch l h i hi hl
    exact embedEachChunk_positional ctx fb strat batch tr tr2 l h i hi hl

/-- Closed instance of C3: with batch size 2 and three texts, the first batch
has two elements, so the short-answer server forces the count-mismatch
per-chunk path and the oversize server forces the per-chunk fallback path;
both still return the three embeddings in order, and the positional lemma is
exercised on a concrete per-chunk run. -/
theorem C3_embed_with_batches_shape_witness :
    (embed_with_batches ⟨fun _ input => if input.length = 1
        then .ok (input.map (fun _ => [1])) else .ok []⟩ 2 800
        .average ⟨[], []⟩ [("x").data, ("y").data, ("z").data]).2 =
      .ok [some [1], some [1], some [1]] ∧
    (embed_with_batches ⟨fun _ input => if input.length = 1
        then .ok (input.map (fun _ => [2])) else .error .tooLarge⟩ 2 800
        .average ⟨[], []⟩ [("x").data, ("y").data, ("z").data]).2 =
      .ok [some [2], some [2], some [2]] ∧
    (embed_with_batches ⟨fun _ input => .ok (input.map (fun _ => [3]))⟩ 2 800
        .average ⟨[], []⟩ [("x").data, ("y").data]).2 =
      .ok [some [3], some [3]] ∧
    (∃ tri : EmbedTrace,
      (embed_chunk_with_fallback
          (⟨fun _ _ => .ok [[(4 : ℚ)]]⟩ : EmbedCtx) 800 .average tri
          (("x").data)).2 =
        .ok (some [(4 : ℚ)])) := by
  refine ⟨?_, ?_, ?_, ?_⟩
  · exact C3_embed_with_batches_shape.2.2.1 (fun _ => [1]) 2 800 .average
      ⟨[], []⟩ [("x").data, ("y").data, ("z").data] (by decide)
  · exact C3_embed_with_batches_shape.2.2.2.1 (fun _ => [2]) 2 800 .average
      ⟨[], []⟩ [("x").data, ("y").data, ("z").data] (by decide)
  · exact C3_embed_with_batches_shape.2.1 (fun _ => [3]) 2 800 .average
      ⟨[], []⟩ [("x").data, ("y").data] (by decide)
  · exact C3_embed_with_batches_shape.2.2.2.2
      (⟨fun _ _ => .ok [[(4 : ℚ)]]⟩ : EmbedCtx) 800 .average ⟨[], []⟩
      ⟨[[("x").data]], []⟩ [("x").data] [some [(4 : ℚ)]] rfl 0 (by decide)
      (by decide)

theorem kindStr_inj (a b : IndexTargetKind) (h : kindStr a = kindStr b) :
    a = b := by
  cases a <;> cases b <;> revert h <;> decide

theorem targetInsertOrReplace_fresh (rows : List TargetRow) (r : TargetRow)
    (h : ∀ q ∈ rows, ¬(q.path = r.path ∧ q.kind = r.kind)) :
    targetInsertOrReplace rows r = rows ++ [r] := by
  unfold targetInsertOrReplace
  congr 1
  apply List.filter_eq_self.mpr
  intro q hq
  rw [decide_eq_true_eq]
  exact h q hq

theorem save_targets_go_eq (clock : Nat → Int) :
    ∀ (T : List IndexTarget) (n : Nat) (rows : List TargetRow),
      (∀ r ∈ rows, ∀ t ∈ T, ¬(r.path = t.path ∧ r.kind = kindStr t.kind)) →
      T.Pairwise (fun a b => ¬(a.path = b.path ∧ a.kind = b.kind)) →
      save_targets_go clock n rows T = rows ++ buildRows clock n T := by
  intro T
  induction T with
  | nil =>
    intro n rows h hp
    simp [save_targets_go, buildRows]
  | cons t rest ih =>
    intro n rows h hp
    simp only [save_targets_go, buildRows]
    rw [targetInsertOrReplace_fresh rows _ (fun q hq => h q hq t (by simp)),
      ih (n + 1) _ ?hrows hp.of_cons]
    · simp
    case hrows =>
      intro r hr u hu
      rcases List.mem_append.mp hr with hin | hin
      · exact h r hin u (by simp [hu])
      · have hreq : r =
            { path := t.path
              kind := kindStr t.kind
              include_subfolders := if t.include_subfolders then 1 else 0
              added_at := clock n } := by simpa using hin
        subst hreq
        intro hcol
        obtain ⟨hpth, hknd⟩ := hcol
        exact (List.pairwise_cons.mp hp).1 u hu ⟨hpth, kindStr_inj _ _ hknd⟩

theorem sortByAdded_of_chain :
    ∀ (l : List TargetRow),
      List.Chain' (fun a b => a.added_at ≤ b.added_at) l →
      sortByAdded l = l := by
  intro l
  induction l with
  | nil => intro hc; rfl
  | cons r rest ih =>
    intro hc
    simp only [sortByAdded]
    rw [ih hc.tail]
    cases rest with
    | nil => rfl
    | cons q rest2 =>
      simp only [insertByAdded]
      rw [if_pos (List.chain'_cons.mp hc).1]

theorem buildRows_chain (clock : Nat → Int)
    (hmono : ∀ m n : Nat, m ≤ n → clock m ≤ clock n) :
    ∀ (T : List IndexTarget) (n : Nat),
      List.Chain' (fun a b => a.added_at ≤ b.added_at) (buildRows clock n T) := by
  intro T
  induction T with
  | nil =>
    intro n
    simp [buildRows]
  | cons t rest ih =>
    intro n
    cases rest with
    | nil => simp [buildRows]
    | cons u rest2 =>
      rw [buildRows, buildRows, List.chain'_cons]
      refine ⟨hmono n (n + 1) (by omega), ?_⟩
      have := ih (n + 1)
      rw [buildRows] at this
      exact this

theorem buildRows_map_back (clock : Nat → Int) :
    ∀ (T : List IndexTarget) (n : Nat),
      (buildRows clock n T).map (fun r =>
        ({ path := r.path,
           kind := if r.kind = "folder" then .folder else .file,
           include_subfolders := decide (r.include_subfolders ≠ (0 : Int)) } :
          IndexTarget)) = T := by
  intro T
  induction T with
  | nil => intro n; rfl
  | cons t rest ih =>
    intro n
    simp only [buildRows, List.map_cons, ih]
    congr 1
    cases t with
    | mk p k i =>
      cases k <;> cases i <;> simp [kindStr]

/-- C6 (amended): for every list of targets whose (path, kind) pairs are
pairwise distinct, save_targets followed by list_targets returns the list
unchanged, preserving order and every field; duplicate keys would be
collapsed by the table's INSERT OR REPLACE. -/
theorem C6_save_list_roundtrip :
    ∀ (clock : Nat → Int) (prior : List TargetRow) (T : List IndexTarget),
      (∀ m n : Nat, m ≤ n → clock m ≤ clock n) →
      T.Pairwise (fun a b => ¬(a.path = b.path ∧ a.kind = b.kind)) →
      list_targets (save_targets clock prior T) = T := by
  intro clock prior T hmono hp
  unfold save_targets
  rw [save_targets_go_eq clock T 0 [] (by simp) hp, List.nil_append]
  unfold list_targets
  rw [sortByAdded_of_chain _ (buildRows_chain clock hmono T 0)]
  exact buildRows_map_back clock T 0

/-- Closed instance of C6's amended round-trip at a concrete target list. -/
theorem C6_save_list_roundtrip_witness :
    list_targets (save_targets (fun n => (n : Int)) []
        [⟨"/a", .file, true⟩, ⟨"/b", .folder, false⟩]) =
      [⟨"/a", .file, true⟩, ⟨"/b", .folder, false⟩] :=
  C6_save_list_roundtrip (fun n => (n : Int)) []
    [⟨"/a", .file, true⟩, ⟨"/b", .folder, false⟩]
    (fun m n h => Int.ofNat_le.mpr h) (by decide)

/-- C1: a document whose recomputed fingerprint — the hash over path bytes,
little-endian size, and little-endian mtime — equals the hash stored in its
file row produces exactly one skip event and leaves the database (file row,
chunk rows, FTS rows, vector rows) and the embedding trace untouched. -/
theorem C1_index_skip_no_writes :
    ∀ (ors : IndexOracles) (ctx : EmbedCtx) (B fb : Nat)
      (strat : FallbackStrategy) (chunk_size chunk_overlap : Nat) (now : Int)
      (total i : Nat) (docPath docKind : String) (db : Db) (tr : EmbedTrace)
      (md : FsMeta),
      ors.fsFile docPath = some md →
      (db.files.find? (fun r => r.path = docPath)).map (fun r => r.hash) =
        some (ors.hash (strBytes docPath ++ le64 md.size ++ le64 md.mtime)) →
      indexDocStep ors ctx B fb strat chunk_size chunk_overlap now total i
          docPath docKind db tr =
        .next db tr [⟨i + 1, total, docPath, "skip"⟩] := by
  intro ors ctx B fb strat cs co now total i p k db tr md hfs hh
  simp only [indexDocStep, hfs, file_fingerprint]
  rw [if_pos hh]

/-- Closed instance of C1: a database holding the matching fingerprint, a
concrete unchanged file, one skip event, no writes. -/
theorem C1_index_skip_no_writes_witness :
    indexDocStep
      ⟨fun _ => "h", fun _ => some ⟨1, 2⟩, fun _ => .error "", fun _ => none⟩
      ⟨fun _ _ => .error .other⟩ 4 800 .average 1000 200 77 5 1 "/d.txt" "txt"
      ⟨[⟨"/d.txt", "txt", "h", 1, 2, 0⟩], [], [], [], 1⟩ ⟨[], []⟩ =
      .next ⟨[⟨"/d.txt", "txt", "h", 1, 2, 0⟩], [], [], [], 1⟩ ⟨[], []⟩
        [⟨2, 5, "/d.txt", "skip"⟩] :=
  C1_index_skip_no_writes
    ⟨fun _ => "h", fun _ => some ⟨1, 2⟩, fun _ => .error "", fun _ => none⟩
    ⟨fun _ _ => .error .other⟩ 4 800 .average 1000 200 77 5 1 "/d.txt" "txt"
    ⟨[⟨"/d.txt", "txt", "h", 1, 2, 0⟩], [], [], [], 1⟩ ⟨[], []⟩ ⟨1, 2⟩
    rfl rfl

theorem lookup_filter_ne (m : List (String × String)) (k k' : String)
    (h : k' ≠ k) :
    (m.filter (fun kv => kv.1 ≠ k)).lookup k' = m.lookup k' := by
  induction m with
  | nil => rfl
  | cons a m' ih =>
    cases a with
    | mk a1 a2 =>
      by_cases hak : a1 = k
      · have hfa : (decide ((a1, a2).1 ≠ k)) = false := by simp [hak]
        rw [List.filter_cons, hfa]
        simp only [Bool.false_eq_true, if_false]
        rw [ih]
        have hne : (k' == a1) = false := by
          rw [hak]
          exact beq_false_of_ne h
        simp [List.lookup, hne]
      · have hfa : (decide ((a1, a2).1 ≠ k)) = true := by simp [hak]
        rw [List.filter_cons, hfa]
        simp only [if_true]
        by_cases hk : k' = a1
        · simp [List.lookup, hk]
        · have hne : (k' == a1) = false := beq_false_of_ne hk
          simp only [List.lookup, hne]
          exact ih

theorem metaSet_lookup_same (m : List (String × String)) (k v : String) :
    (metaSet m k v).lookup k = some v := by
  simp [metaSet, List.lookup]

theorem metaSet_lookup_ne (m : List (String × String)) (k k' v : String)
    (h : k' ≠ k) :
    (metaSet m k v).lookup k' = m.lookup k' := by
  unfold metaSet
  have hne : (k' == k) = false := beq_false_of_ne h
  simp only [List.lookup, hne]
  exact lookup_filter_ne m k k' h

/-- C5: opening the store with dimension D and chunk parameters compares them
with the persisted meta values.  If any persisted value exists (and parses)
and differs, all content is reset: files and chunks emptied, both virtual
tables dropped and recreated, vec_chunks with the new dimension D, and the
three meta keys rewritten to the current values.  If no persisted value
differs — including when none are persisted — files, chunks, and the rows of
both virtual tables are left intact. -/
theorem C5_ensure_schema_migration :
    (∀ (db : SDb) (dim cs co : Nat),
        ((∃ o : Int, (db.meta.lookup "embedding_dim").bind rustParseI64 =
            some o ∧ o ≠ (dim : Int)) ∨
         (∃ o : Int, (db.meta.lookup "chunk_size").bind rustParseI64 =
            some o ∧ o ≠ (cs : Int)) ∨
         (∃ o : Int, (db.meta.lookup "chunk_overlap").bind rustParseI64 =
            some o ∧ o ≠ (co : Int))) →
        (ensure_schema db dim cs co).files = [] ∧
        (ensure_schema db dim cs co).chunks = [] ∧
        (ensure_schema db dim cs co).fts = some [] ∧
        (ensure_schema db dim cs co).vec = some (dim, []) ∧
        (ensure_schema db dim cs co).meta.lookup "embedding_dim" =
          some (toString dim) ∧
        (ensure_schema db dim cs co).meta.lookup "chunk_size" =
          some (toString cs) ∧
        (ensure_schema db dim cs co).meta.lookup "chunk_overlap" =
          some (toString co)) ∧
    (∀ (db : SDb) (dim cs co : Nat),
        (∀ o : Int, (db.meta.lookup "embedding_dim").bind rustParseI64 =
          some o → o = (dim : Int)) →
        (∀ o : Int, (db.meta.lookup "chunk_size").bind rustParseI64 =
          some o → o = (cs : Int)) →
        (∀ o : Int, (db.meta.lookup "chunk_overlap").bind rustParseI64 =
          some o → o = (co : Int)) →
        (ensure_schema db dim cs co).files = db.files ∧
        (ensure_schema db dim cs co).chunks = db.chunks ∧
        (∀ rows, db.fts = some rows →
          (ensure_schema db dim cs co).fts = some rows) ∧
        (∀ v, db.vec = some v →
          (ensure_schema db dim cs co).vec = some v)) := by
  constructor
  · intro db dim cs co hmis
    have hb : ((match (db.meta.lookup "embedding_dim").bind rustParseI64 with
        | some o => decide (o ≠ (dim : Int))
        | none => false) ||
        (match (db.meta.lookup "chunk_size").bind rustParseI64 with
        | some o => decide (o ≠ (cs : Int))
        | none => false) ||
        (match (db.meta.lookup "chunk_overlap").bind rustParseI64 with
        | some o => decide (o ≠ (co : Int))
        | none => false)) = true := by
      rcases hmis with ⟨o, ho, hne⟩ | ⟨o, ho, hne⟩ | ⟨o, ho, hne⟩ <;>
        simp [ho, hne]
    simp only [ensure_schema, hb, if_true]
    refine ⟨by trivial, by trivial, by trivial, by trivial, ?_, ?_, ?_⟩
    · rw [metaSet_lookup_ne _ _ _ _ (by decide),
        metaSet_lookup_ne _ _ _ _ (by decide), metaSet_lookup_same]
    · rw [metaSet_lookup_ne _ _ _ _ (by decide), metaSet_lookup_same]
    · rw [metaSet_lookup_same]
  · intro db dim cs co h1 h2 h3
    have f1 : (match (db.meta.lookup "embedding_dim").bind rustParseI64 with
        | some o => decide (o ≠ (dim : Int))
        | none => false) = false := by
      cases ho : (db.meta.lookup "embedding_dim").bind rustParseI64 with
      | none => rfl
      | some o => simp [h1 o ho]
    have f2 : (match (db.meta.lookup "chunk_size").bind rustParseI64 with
        | some o => decide (o ≠ (cs : Int))
        | none => false) = false := by
      cases ho : (db.meta.lookup "chunk_size").bind rustParseI64 with
      | none => rfl
      | some o => simp [h2 o ho]
    have f3 : (match (db.meta.lookup "chunk_overlap").bind rustParseI64 with
        | some o => decide (o ≠ (co : Int))
        | none => false) = false := by
      cases ho : (db.meta.lookup "chunk_overlap").bind rustParseI64 with
      | none => rfl
      | some o => simp [h3 o ho]
    simp only [ensure_schema, f1, f2, f3, Bool.or_false, Bool.false_eq_true,
      if_false]
    refine ⟨by trivial, by trivial, ?_, ?_⟩
    · intro rows hrows
      simp [hrows]
    · intro v hv
      simp [hv]

/-- Closed instance of C5: a stored dimension 3 reopened with dimension 4
resets the content; a store whose persisted values match is untouched. -/
theorem C5_ensure_schema_migration_witness :
    ((ensure_schema ⟨[("embedding_dim", "3")], [⟨"/f", "txt", "h", 1, 2, 3⟩],
        [], some [(1, ("x").data)], some (3, [])⟩ 4 9 2).files = [] ∧
      (ensure_schema ⟨[("embedding_dim", "3")], [⟨"/f", "txt", "h", 1, 2, 3⟩],
        [], some [(1, ("x").data)], some (3, [])⟩ 4 9 2).vec = some (4, [])) ∧
    (ensure_schema ⟨[("embedding_dim", "4")], [⟨"/f", "txt", "h", 1, 2, 3⟩],
        [], some [(1, ("x").data)], some (4, [])⟩ 4 9 2).files =
      [⟨"/f", "txt", "h", 1, 2, 3⟩] := by
  constructor
  · have h := C5_ensure_schema_migration.1
      ⟨[("embedding_dim", "3")], [⟨"/f", "txt", "h", 1, 2, 3⟩],
        [], some [(1, ("x").data)], some (3, [])⟩ 4 9 2
      (Or.inl ⟨3, by decide, by decide⟩)
    exact ⟨h.1, h.2.2.2.1⟩
  · have h := C5_ensure_schema_migration.2
      ⟨[("embedding_dim", "4")], [⟨"/f", "txt", "h", 1, 2, 3⟩],
        [], some [(1, ("x").data)], some (4, [])⟩ 4 9 2
      (by
        intro o ho
        have h4 : some (4 : Int) = some o := by
          rw [← ho]
          decide
        injection h4 with h4
        rw [← h4]
        decide)
      (by intro o ho; simp [List.lookup] at ho)
      (by intro o ho; simp [List.lookup] at ho)
    exact h.1

end LFC
